import Mathlib

/-!
Set-associative cache simulator (`cache.c`)

A shallow embedding of `init_cache`, `access_cache` and `print_stats` from `src/cache.c`,
followed by theorems about them.

Modelling conventions.

* A C `int` is a Lean `Int`.  `/` and `%` are the truncating `Int.tdiv` and `Int.tmod`,
  and a zero divisor is the fault `divByZero`.  Signed overflow (undefined behaviour in C;
  it would need about `2^31` accesses to overflow a counter) is outside the model.
* The arrays `valid`, `tag` (one row per set) and `lru` (flattened, `set * assoc + way`)
  are lists.  An index outside an array is the fault `outOfBounds`.
* `malloc` always succeeds; an array of non-positive size is the empty list.
* The byte array `data` is written by `memset`/`memcpy` but never read by any function of
  the program; it is left out of the state.
* `rand()` is a parameter of `access_cache`: the value the call would return.  It is
  consulted only on a miss under a non-LRU policy.
* `print_stats` returns the numbers it prints.  The `double` hit rate is an exact rational;
  a division by zero has no value.
* `init_cache` receives the `Cache` record whose fields `size` and `block_size` the caller
  has set, as `main` does.  It does not touch `lru` when `rp` is not `0`.
-/

namespace CacheSim

/-- Run-time faults of the C program that the embedding makes explicit. -/
inductive Fault where
  | divByZero
  | outOfBounds
  deriving DecidableEq, Repr

/-- The record `struct cache` (without the write-only byte array `data`). -/
structure Cache where
  size : Int
  num_sets : Int
  assoc : Int
  block_size : Int
  replacement : Int
  hit : Int
  miss : Int
  valid : List (List Int)
  tag : List (List Int)
  lru : List Int
  deriving DecidableEq, Repr

/-- C integer division `a / b`. -/
def cdiv (a b : Int) : Except Fault Int :=
  if b = 0 then .error .divByZero else .ok (a.tdiv b)

/-- C integer remainder `a % b`. -/
def cmod (a b : Int) : Except Fault Int :=
  if b = 0 then .error .divByZero else .ok (a.tmod b)

/-- Array read `xs[i]`. -/
def rd {α : Type} (xs : List α) (i : Int) : Except Fault α :=
  if i < 0 then .error .outOfBounds
  else match xs[i.toNat]? with
    | some v => .ok v
    | none => .error .outOfBounds

/-- Array write `xs[i] = v`. -/
def wr {α : Type} (xs : List α) (i : Int) (v : α) : Except Fault (List α) :=
  if i < 0 then .error .outOfBounds
  else if i.toNat < xs.length then .ok (xs.set i.toNat v)
  else .error .outOfBounds

/-- Two-level read `xss[i][j]`. -/
def rd2 {α : Type} (xss : List (List α)) (i j : Int) : Except Fault α := do
  let row ← rd xss i
  rd row j

/-- Two-level write `xss[i][j] = v`. -/
def wr2 {α : Type} (xss : List (List α)) (i j : Int) (v : α) : Except Fault (List (List α)) := do
  let row ← rd xss i
  let row' ← wr row j v
  wr xss i row'

/-- `init_cache(cache, assoc, rp)`, lines 39-66.  The two nested loops fill every row of
`tag` with `-1` and every row of `valid` with `0`; `lru` is allocated and zeroed only when
`rp == 0`. -/
def init_cache (cache : Cache) (assoc rp : Int) : Except Fault Cache := do
  let num_sets ← cdiv cache.size (assoc * cache.block_size)
  .ok { cache with
    assoc := assoc
    num_sets := num_sets
    replacement := rp
    hit := 0
    miss := 0
    tag := List.replicate num_sets.toNat (List.replicate assoc.toNat (-1))
    valid := List.replicate num_sets.toNat (List.replicate assoc.toNat 0)
    lru := if rp = 0 then List.replicate (num_sets * assoc).toNat 0 else cache.lru }

/-- The hit scan of lines 74-75 and 88: `n` iterations remain, `i` is the loop variable.
Returns the first way `i` with `valid[set_index][i] && tag[set_index][i] == tag`. -/
def scan_hit (cache : Cache) (set_index tag : Int) : Nat → Int → Except Fault (Option Int)
  | 0, _ => .ok none
  | n + 1, i => do
    let v ← rd2 cache.valid set_index i
    if v ≠ 0 then
      let t ← rd2 cache.tag set_index i
      if t = tag then .ok (some i) else scan_hit cache set_index tag n (i + 1)
    else scan_hit cache set_index tag n (i + 1)

/-- The ageing loop of lines 80-84: `lru[base + j]++` for every `j != i`. -/
def age_others (base i : Int) : Nat → Int → List Int → Except Fault (List Int)
  | 0, _, lru => .ok lru
  | n + 1, j, lru =>
    if j ≠ i then do
      let x ← rd lru (base + j)
      let lru' ← wr lru (base + j) (x + 1)
      age_others base i n (j + 1) lru'
    else age_others base i n (j + 1) lru

/-- The victim search of lines 93-97: `n` iterations remain, `i` is the loop variable. -/
def find_lru (lru : List Int) (base : Int) : Nat → Int → Int → Except Fault Int
  | 0, _, lru_index => .ok lru_index
  | n + 1, i, lru_index => do
    let a ← rd lru (base + i)
    let b ← rd lru (base + lru_index)
    find_lru lru base n (i + 1) (if a > b then i else lru_index)

/-- `access_cache(cache, addr)`, lines 69-111; `rnd` is what `rand()` returns. -/
def access_cache (cache : Cache) (addr rnd : Int) : Except Fault Cache := do
  let blk ← cdiv addr cache.block_size
  let set_index ← cmod blk cache.num_sets
  let tag ← cdiv blk cache.num_sets
  match ← scan_hit cache set_index tag cache.assoc.toNat 0 with
  | some i =>
    if cache.replacement = 0 then
      let lru0 ← wr cache.lru (set_index * cache.assoc + i) 0
      let lru1 ← age_others (set_index * cache.assoc) i cache.assoc.toNat 0 lru0
      .ok { cache with hit := cache.hit + 1, lru := lru1 }
    else
      .ok { cache with hit := cache.hit + 1 }
  | none =>
    if cache.replacement = 0 then
      let lru_index ← find_lru cache.lru (set_index * cache.assoc) (cache.assoc - 1).toNat 1 0
      let tag' ← wr2 cache.tag set_index lru_index tag
      let valid' ← wr2 cache.valid set_index lru_index 1
      let lru' ← wr cache.lru (set_index * cache.assoc + lru_index) 0
      .ok { cache with miss := cache.miss + 1, tag := tag', valid := valid', lru := lru' }
    else
      let random_index ← cmod rnd cache.assoc
      let tag' ← wr2 cache.tag set_index random_index tag
      let valid' ← wr2 cache.valid set_index random_index 1
      .ok { cache with miss := cache.miss + 1, tag := tag', valid := valid' }

/-- The driver loop of `main` (lines 162-170) for one cache: the accesses are fed one by
one, each paired with the value `rand()` would return during it. -/
def run (cache : Cache) : List (Int × Int) → Except Fault Cache
  | [] => .ok cache
  | (addr, rnd) :: rest => do
    let cache' ← access_cache cache addr rnd
    run cache' rest

/-- A `Cache` record as `main` prepares it before `init_cache`: only `size` and
`block_size` are set; no array is allocated yet. -/
def blank (size block_size : Int) : Cache :=
  { size := size, num_sets := 0, assoc := 0, block_size := block_size, replacement := 0,
    hit := 0, miss := 0, valid := [], tag := [], lru := [] }

/-- The set an address maps to: `(addr / block_size) % num_sets` (line 70). -/
def setIdx (c : Cache) (addr : Int) : Int :=
  (addr.tdiv c.block_size).tmod c.num_sets

/-- The tag of an address: `(addr / block_size) / num_sets` (line 71). -/
def tagOf (c : Cache) (addr : Int) : Int :=
  (addr.tdiv c.block_size).tdiv c.num_sets

/-- Way `i` of set `s` is valid and holds tag `t`: the test of line 75. -/
def MatchAt (c : Cache) (s t i : Int) : Prop :=
  ∃ v, rd2 c.valid s i = .ok v ∧ v ≠ 0 ∧ rd2 c.tag s i = .ok t

/-- Some way of set `s` is valid and holds tag `t`. -/
def Resident (c : Cache) (s t : Int) : Prop :=
  ∃ i, 0 ≤ i ∧ i < c.assoc ∧ MatchAt c s t i

/-- The access that took `c` to `c'` was a hit: line 76 ran. -/
def IsHit (c c' : Cache) : Prop :=
  c'.hit = c.hit + 1 ∧ c'.miss = c.miss

/-- The access that took `c` to `c'` was a miss: line 90 ran. -/
def IsMiss (c c' : Cache) : Prop :=
  c'.miss = c.miss + 1 ∧ c'.hit = c.hit

/-- The shape `init_cache` establishes and `access_cache` relies on: positive geometry,
`num_sets` rows of `assoc` ways in `valid` and `tag`, and under LRU a recency array of
`num_sets * assoc` entries. -/
def WF (c : Cache) : Prop :=
  0 < c.block_size ∧ 0 < c.num_sets ∧ 0 < c.assoc ∧
  c.valid.length = c.num_sets.toNat ∧ (∀ row ∈ c.valid, row.length = c.assoc.toNat) ∧
  c.tag.length = c.num_sets.toNat ∧ (∀ row ∈ c.tag, row.length = c.assoc.toNat) ∧
  (c.replacement = 0 → c.lru.length = (c.num_sets * c.assoc).toNat)

instance (c : Cache) : Decidable (WF c) := by
  unfold WF
  infer_instance

/-- The two accesses alternate: `a, b, a, b, ...` (`n` of them). -/
def alternate (a b : Int) : Nat → List Int
  | 0 => []
  | n + 1 => a :: alternate b a n

/-- A 2-way LRU cache of 32 bytes with 4-byte blocks in which way 0 of set 0 holds tag 3. -/
def warm2way : Cache :=
  { size := 32, num_sets := 4, assoc := 2, block_size := 4, replacement := 0,
    hit := 0, miss := 0, valid := [[1, 0], [0, 0], [0, 0], [0, 0]],
    tag := [[3, -1], [-1, -1], [-1, -1], [-1, -1]], lru := [0, 1, 0, 0, 0, 0, 0, 0] }

/-- A direct-mapped cache of 32 bytes with 4-byte blocks in which set 1 holds tag 0. -/
def warm1way : Cache :=
  { size := 32, num_sets := 8, assoc := 1, block_size := 4, replacement := 1,
    hit := 0, miss := 1, valid := [[0], [1], [0], [0], [0], [0], [0], [0]],
    tag := [[-1], [0], [-1], [-1], [-1], [-1], [-1], [-1]], lru := [] }

/-- Way `v` of set `s` is what the victim search of lines 92-97 selects: its recency is the
greatest among the `assoc` ways of the set, and every lower-indexed way has a strictly
smaller recency. -/
def IsLruVictim (c : Cache) (s v : Int) : Prop :=
  0 ≤ v ∧ v < c.assoc ∧ ∃ xv, rd c.lru (s * c.assoc + v) = .ok xv ∧
    ∀ j x : Int, 0 ≤ j → j < c.assoc → rd c.lru (s * c.assoc + j) = .ok x →
      x ≤ xv ∧ (j < v → x < xv)

/-- No set holds the same tag in two distinct valid ways. -/
def NoDupTags (c : Cache) : Prop :=
  ∀ s t w1 w2 : Int, MatchAt c s t w1 → MatchAt c s t w2 → w1 = w2

/-- Every valid way holds the set index and tag of an address of the list `seen`. -/
def SeenInv (c : Cache) (seen : List Int) : Prop :=
  ∀ s t w : Int, MatchAt c s t w → ∃ a ∈ seen, setIdx c a = s ∧ tagOf c a = t

/-- Every entry of the recency array is 0. -/
def AllRecencyZero (c : Cache) : Prop :=
  ∀ p x : Int, rd c.lru p = .ok x → x = 0

/-- A valid way can only be way 0 of its set. -/
def OnlyWayZeroValid (c : Cache) : Prop :=
  ∀ s w v : Int, rd2 c.valid s w = .ok v → v ≠ 0 → w = 0

/-- Division of two `double`s.  Rounding is not modelled (the quotient is exact); a zero
divisor gives no number (IEEE NaN for `0/0`, an infinity otherwise), here `none`. -/
def fdiv (a b : Rat) : Option Rat :=
  if b = 0 then none else some (a / b)

/-- `print_stats(cache, name)`, lines 114-121: the four numbers it prints, in order: hits,
misses, total accesses `hit + miss`, and the hit rate `100.0 * hit / (hit + miss)`. -/
def print_stats (cache : Cache) : Int × Int × Int × Option Rat :=
  (cache.hit, cache.miss, cache.hit + cache.miss,
    fdiv (100 * (cache.hit : Rat)) ((cache.hit + cache.miss : Int) : Rat))

/-! ## Reads and writes -/

theorem bind_eq_ok {α β : Type} (x : Except Fault α) (f : α → Except Fault β) (b : β) :
    (x >>= f) = .ok b ↔ ∃ a, x = .ok a ∧ f a = .ok b := by
  cases x <;> simp [bind, Except.bind]

theorem rd_eq_ok {α : Type} {xs : List α} {i : Int} {v : α} :
    rd xs i = .ok v ↔ 0 ≤ i ∧ xs[i.toNat]? = some v := by
  unfold rd
  by_cases h : i < 0
  · simp [h]
  · simp only [h, if_false]
    have h0 : 0 ≤ i := by omega
    cases hx : xs[i.toNat]? <;> simp [h0]

theorem rd_ok_of_lt {α : Type} (xs : List α) {i : Int} (h0 : 0 ≤ i) (h1 : i.toNat < xs.length) :
    ∃ v, rd xs i = .ok v := by
  refine ⟨xs[i.toNat], ?_⟩
  rw [rd_eq_ok]
  exact ⟨h0, List.getElem?_eq_getElem h1⟩

theorem lt_of_rd_ok {α : Type} {xs : List α} {i : Int} {v : α} (h : rd xs i = .ok v) :
    0 ≤ i ∧ i.toNat < xs.length := by
  rw [rd_eq_ok] at h
  refine ⟨h.1, ?_⟩
  by_contra hc
  rw [List.getElem?_eq_none (by omega)] at h
  exact absurd h.2 (by simp)

theorem wr_eq_ok {α : Type} {xs xs' : List α} {i : Int} {v : α} :
    wr xs i v = .ok xs' ↔ 0 ≤ i ∧ i.toNat < xs.length ∧ xs' = xs.set i.toNat v := by
  unfold wr
  by_cases h : i < 0
  · simp [h]
  · have h0 : 0 ≤ i := by omega
    by_cases h1 : i.toNat < xs.length
    · simp [h, h0, h1, eq_comm]
    · simp [h, h1]

theorem wr_ok_of_lt {α : Type} (xs : List α) {i : Int} (v : α) (h0 : 0 ≤ i)
    (h1 : i.toNat < xs.length) : wr xs i v = .ok (xs.set i.toNat v) :=
  wr_eq_ok.mpr ⟨h0, h1, rfl⟩

theorem wr_length {α : Type} {xs xs' : List α} {i : Int} {v : α} (h : wr xs i v = .ok xs') :
    xs'.length = xs.length := by
  obtain ⟨_, _, rfl⟩ := wr_eq_ok.mp h
  simp

theorem rd_wr {α : Type} {xs xs' : List α} {i : Int} {v : α} (h : wr xs i v = .ok xs')
    (j : Int) : rd xs' j = if j = i then .ok v else rd xs j := by
  obtain ⟨h0, h1, rfl⟩ := wr_eq_ok.mp h
  by_cases hj : j < 0
  · have hne : j ≠ i := by omega
    simp [rd, hj, hne]
  · by_cases hji : j = i
    · subst hji
      simp [rd, hj, h1]
    · have hne : ¬ i.toNat = j.toNat := by omega
      simp [rd, hj, hji, List.getElem?_set, hne]

theorem rd2_eq_ok {α : Type} {xss : List (List α)} {i j : Int} {v : α} :
    rd2 xss i j = .ok v ↔ ∃ row, rd xss i = .ok row ∧ rd row j = .ok v := by
  unfold rd2
  exact bind_eq_ok _ _ _

theorem wr2_eq_ok {α : Type} {xss xss' : List (List α)} {i j : Int} {v : α} :
    wr2 xss i j v = .ok xss' ↔
      ∃ row row', rd xss i = .ok row ∧ wr row j v = .ok row' ∧ wr xss i row' = .ok xss' := by
  unfold wr2
  rw [bind_eq_ok]
  constructor
  · rintro ⟨row, h1, h2⟩
    rw [bind_eq_ok] at h2
    obtain ⟨row', h3, h4⟩ := h2
    exact ⟨row, row', h1, h3, h4⟩
  · rintro ⟨row, row', h1, h3, h4⟩
    refine ⟨row, h1, ?_⟩
    rw [bind_eq_ok]
    exact ⟨row', h3, h4⟩

theorem rd2_wr2 {α : Type} {xss xss' : List (List α)} {i j : Int} {v : α}
    (h : wr2 xss i j v = .ok xss') (i' j' : Int) :
    rd2 xss' i' j' = if i' = i ∧ j' = j then .ok v else rd2 xss i' j' := by
  obtain ⟨row, row', h1, h2, h3⟩ := wr2_eq_ok.mp h
  unfold rd2
  rw [rd_wr h3 i']
  by_cases hi : i' = i
  · subst hi
    simp only [if_true, true_and, h1]
    show rd row' j' = _
    rw [rd_wr h2 j']
    by_cases hj : j' = j
    · simp [hj]
    · simp only [hj, if_false]
      rfl
  · simp [hi]

theorem wr2_ok_of_rd2 {α : Type} {xss : List (List α)} {i j : Int} {x : α} (v : α)
    (h : rd2 xss i j = .ok x) : ∃ xss', wr2 xss i j v = .ok xss' := by
  obtain ⟨row, h1, h2⟩ := rd2_eq_ok.mp h
  obtain ⟨hj0, hj1⟩ := lt_of_rd_ok h2
  obtain ⟨hi0, hi1⟩ := lt_of_rd_ok h1
  exact ⟨_, wr2_eq_ok.mpr ⟨row, _, h1, wr_ok_of_lt row v hj0 hj1, wr_ok_of_lt xss _ hi0 hi1⟩⟩

theorem wr2_shape {α : Type} {xss xss' : List (List α)} {i j : Int} {v : α} {m : Nat}
    (h : wr2 xss i j v = .ok xss') (hrow : ∀ row ∈ xss, row.length = m) :
    xss'.length = xss.length ∧ ∀ row ∈ xss', row.length = m := by
  obtain ⟨row, row', h1, h2, h3⟩ := wr2_eq_ok.mp h
  refine ⟨wr_length h3, ?_⟩
  obtain ⟨_, _, rfl⟩ := wr_eq_ok.mp h3
  intro r hr
  rcases List.mem_or_eq_of_mem_set hr with hr | rfl
  · exact hrow r hr
  · rw [wr_length h2]
    apply hrow
    obtain ⟨_, hrd⟩ := rd_eq_ok.mp h1
    exact List.getElem?_mem hrd

theorem rd2_ok_of_shape {α : Type} {xss : List (List α)} {n m : Nat} {i j : Int}
    (hlen : xss.length = n) (hrow : ∀ row ∈ xss, row.length = m)
    (hi0 : 0 ≤ i) (hi1 : i.toNat < n) (hj0 : 0 ≤ j) (hj1 : j.toNat < m) :
    ∃ v, rd2 xss i j = .ok v := by
  obtain ⟨row, hr⟩ := rd_ok_of_lt xss hi0 (by omega)
  have hmem : row ∈ xss := List.getElem?_mem (rd_eq_ok.mp hr).2
  obtain ⟨v, hv⟩ := rd_ok_of_lt row hj0 (by rw [hrow row hmem]; exact hj1)
  exact ⟨v, rd2_eq_ok.mpr ⟨row, hr, hv⟩⟩

theorem lt_of_rd2_ok {α : Type} {xss : List (List α)} {n m : Nat} {i j : Int} {v : α}
    (hlen : xss.length = n) (hrow : ∀ row ∈ xss, row.length = m)
    (h : rd2 xss i j = .ok v) : 0 ≤ i ∧ i.toNat < n ∧ 0 ≤ j ∧ j.toNat < m := by
  obtain ⟨row, h1, h2⟩ := rd2_eq_ok.mp h
  have hmem : row ∈ xss := List.getElem?_mem (rd_eq_ok.mp h1).2
  obtain ⟨a, b⟩ := lt_of_rd_ok h1
  obtain ⟨c, d⟩ := lt_of_rd_ok h2
  rw [hrow row hmem] at d
  exact ⟨a, by omega, c, d⟩

/-! ## The three loops of `access_cache` -/

theorem scan_hit_spec (c : Cache) (s t : Int) (n : Nat) : ∀ k : Nat,
    (∀ j : Nat, k ≤ j → j < k + n →
      (∃ v, rd2 c.valid s j = .ok v) ∧ (∃ t', rd2 c.tag s j = .ok t')) →
    (scan_hit c s t n k = .ok none ∧ ∀ j : Nat, k ≤ j → j < k + n → ¬ MatchAt c s t j) ∨
    (∃ j : Nat, k ≤ j ∧ j < k + n ∧ scan_hit c s t n k = .ok (some (j : Int)) ∧
      MatchAt c s t j ∧ ∀ j' : Nat, k ≤ j' → j' < j → ¬ MatchAt c s t j') := by
  induction n with
  | zero =>
    intro k _
    left
    refine ⟨rfl, ?_⟩
    intro j h1 h2
    omega
  | succ n ih =>
    intro k H
    obtain ⟨⟨v, hv⟩, ⟨t', ht'⟩⟩ := H k (le_refl k) (by omega)
    have hcast : ((k : Int) + 1) = ((k + 1 : Nat) : Int) := by push_cast; rfl
    have hnot : ¬ (v ≠ 0 ∧ t' = t) → ¬ MatchAt c s t k := by
      rintro hn ⟨v', h1, h2, h3⟩
      rw [hv] at h1
      rw [ht'] at h3
      injection h1 with h1
      injection h3 with h3
      subst h1
      exact hn ⟨h2, h3⟩
    have hrec : ¬ (v ≠ 0 ∧ t' = t) → scan_hit c s t (n + 1) k = scan_hit c s t n ((k + 1 : Nat) : Int) := by
      intro hn
      rw [← hcast]
      by_cases h0 : v = 0
      · simp [scan_hit, hv, h0, bind, Except.bind]
      · have h1 : ¬ t' = t := fun h => hn ⟨h0, h⟩
        simp [scan_hit, hv, ht', h0, h1, bind, Except.bind]
    by_cases hm : v ≠ 0 ∧ t' = t
    · right
      refine ⟨k, le_refl k, by omega, ?_, ⟨v, hv, hm.1, hm.2 ▸ ht'⟩, ?_⟩
      · simp [scan_hit, hv, ht', hm.1, hm.2, bind, Except.bind]
      · intro j' h1 h2
        omega
    · rw [hrec hm]
      rcases ih (k + 1) (fun j h1 h2 => H j (by omega) (by omega)) with ⟨h1, h2⟩ | ⟨j, h1, h2, h3, h4, h5⟩
      · left
        refine ⟨h1, ?_⟩
        intro j hj1 hj2
        rcases Nat.eq_or_lt_of_le hj1 with rfl | hlt
        · exact hnot hm
        · exact h2 j hlt (by omega)
      · right
        refine ⟨j, by omega, by omega, h3, h4, ?_⟩
        intro j' hj1 hj2
        rcases Nat.eq_or_lt_of_le hj1 with rfl | hlt
        · exact hnot hm
        · exact h5 j' hlt hj2

theorem age_others_spec (base i : Int) (n : Nat) : ∀ (k : Nat) (lru : List Int),
    (∀ j : Nat, k ≤ j → j < k + n → 0 ≤ base + j ∧ (base + j).toNat < lru.length) →
    ∃ lru', age_others base i n k lru = .ok lru' ∧ lru'.length = lru.length ∧
      ∀ (p x : Int), rd lru p = .ok x →
        rd lru' p = .ok (if base + k ≤ p ∧ p < base + k + n ∧ p ≠ base + i then x + 1 else x) := by
  induction n with
  | zero =>
    intro k lru _
    refine ⟨lru, rfl, rfl, ?_⟩
    intro p x hp
    have : ¬ (base + (k : Int) ≤ p ∧ p < base + k + (0 : Nat) ∧ p ≠ base + i) := by
      push_cast
      omega
    rw [if_neg this]
    exact hp
  | succ n ih =>
    intro k lru H
    have hcast : ((k : Int) + 1) = ((k + 1 : Nat) : Int) := by push_cast; rfl
    obtain ⟨hk0, hk1⟩ := H k (le_refl k) (by omega)
    by_cases hki : (k : Int) = i
    · have hstep : age_others base i (n + 1) k lru = age_others base i n ((k + 1 : Nat) : Int) lru := by
        rw [← hcast]
        simp [age_others, hki]
      rw [hstep]
      obtain ⟨lru', h1, h2, h3⟩ := ih (k + 1) lru (fun j a b => H j (by omega) (by omega))
      refine ⟨lru', h1, h2, ?_⟩
      intro p x hp
      rw [h3 p x hp]
      congr 1
      push_cast
      apply if_congr _ rfl rfl
      constructor
      · rintro ⟨a, b, d⟩
        exact ⟨by omega, by omega, d⟩
      · rintro ⟨a, b, d⟩
        exact ⟨by omega, by omega, d⟩
    · obtain ⟨x0, hx0⟩ := rd_ok_of_lt lru hk0 hk1
      have hw := wr_ok_of_lt lru (x0 + 1) hk0 hk1
      have hstep : age_others base i (n + 1) k lru =
          age_others base i n ((k + 1 : Nat) : Int) (lru.set (base + k).toNat (x0 + 1)) := by
        rw [← hcast]
        simp [age_others, hki, hx0, hw, bind, Except.bind]
      rw [hstep]
      obtain ⟨lru', h1, h2, h3⟩ := ih (k + 1) (lru.set (base + k).toNat (x0 + 1))
        (fun j a b => by simpa using H j (by omega) (by omega))
      refine ⟨lru', h1, by simpa using h2, ?_⟩
      intro p x hp
      have hrd := rd_wr hw p
      by_cases hpk : p = base + k
      · subst hpk
        rw [if_pos rfl] at hrd
        rw [hx0] at hp
        injection hp with hp
        subst hp
        rw [h3 _ _ hrd]
        congr 1
        have c1 : ¬ (base + ((k + 1 : Nat) : Int) ≤ base + k ∧ base + (k : Int) < base + ((k + 1 : Nat) : Int) + n ∧
            base + (k : Int) ≠ base + i) := by
          push_cast
          omega
        have c2 : (base + (k : Int) ≤ base + k ∧ base + (k : Int) < base + k + ((n + 1 : Nat) : Int) ∧
            base + (k : Int) ≠ base + i) := by
          push_cast
          omega
        rw [if_neg c1, if_pos c2]
      · rw [if_neg hpk, hp] at hrd
        rw [h3 _ _ hrd]
        congr 1
        push_cast
        apply if_congr _ rfl rfl
        constructor
        · rintro ⟨a, b, d⟩
          exact ⟨by omega, by omega, d⟩
        · rintro ⟨a, b, d⟩
          exact ⟨by omega, by omega, d⟩

theorem find_lru_spec (lru : List Int) (base : Int) (A : Nat)
    (H : ∀ j : Nat, j < A → ∃ x, rd lru (base + j) = .ok x) (n : Nat) :
    ∀ (k v0 : Nat), k + n ≤ A → v0 < A →
    ∃ v : Nat, find_lru lru base n k v0 = .ok (v : Int) ∧ v < A := by
  induction n with
  | zero =>
    intro k v0 _ hv
    exact ⟨v0, rfl, hv⟩
  | succ n ih =>
    intro k v0 hk hv
    have hcast : ((k : Int) + 1) = ((k + 1 : Nat) : Int) := by push_cast; rfl
    obtain ⟨a, ha⟩ := H k (by omega)
    obtain ⟨b, hb⟩ := H v0 hv
    by_cases hab : a > b
    · obtain ⟨v, h1, h2⟩ := ih (k + 1) k (by omega) (by omega)
      refine ⟨v, ?_, h2⟩
      rw [← h1, ← hcast]
      simp [find_lru, ha, hb, hab, bind, Except.bind]
    · obtain ⟨v, h1, h2⟩ := ih (k + 1) v0 (by omega) hv
      refine ⟨v, ?_, h2⟩
      rw [← h1, ← hcast]
      simp [find_lru, ha, hb, hab, bind, Except.bind]

/-! ## One access on a well-formed cache -/

theorem setIdx_bounds {c : Cache} (hns : 0 < c.num_sets) (addr : Int) :
    0 ≤ addr → 0 < c.block_size → 0 ≤ setIdx c addr ∧ setIdx c addr < c.num_sets := by
  intro ha hbs
  have hb : 0 ≤ addr.tdiv c.block_size := by
    rw [Int.tdiv_eq_ediv ha hbs.le]
    exact Int.ediv_nonneg ha hbs.le
  unfold setIdx
  rw [Int.tmod_eq_emod hb hns.le]
  exact ⟨Int.emod_nonneg _ hns.ne', Int.emod_lt_of_pos _ hns⟩

theorem flat_bounds {s w ns a : Int} (hs0 : 0 ≤ s) (hs1 : s < ns) (hw0 : 0 ≤ w) (hw1 : w < a) :
    0 ≤ s * a + w ∧ s * a + w < ns * a := by
  have ha : 0 < a := by omega
  have h1 : 0 ≤ s * a := mul_nonneg hs0 ha.le
  have h2 : (s + 1) * a ≤ ns * a := mul_le_mul_of_nonneg_right (by omega) ha.le
  constructor
  · omega
  · have : (s + 1) * a = s * a + a := by ring
    omega

theorem wf_rd2 {c : Cache} (h : WF c) {s w : Int} (hs0 : 0 ≤ s) (hs1 : s < c.num_sets)
    (hw0 : 0 ≤ w) (hw1 : w < c.assoc) :
    (∃ v, rd2 c.valid s w = .ok v) ∧ (∃ t, rd2 c.tag s w = .ok t) := by
  obtain ⟨_, _, _, h4, h5, h6, h7, _⟩ := h
  exact ⟨rd2_ok_of_shape h4 h5 hs0 (by omega) hw0 (by omega),
    rd2_ok_of_shape h6 h7 hs0 (by omega) hw0 (by omega)⟩

theorem wf_lru {c : Cache} (h : WF c) (hrp : c.replacement = 0) {s w : Int} (hs0 : 0 ≤ s)
    (hs1 : s < c.num_sets) (hw0 : 0 ≤ w) (hw1 : w < c.assoc) :
    0 ≤ s * c.assoc + w ∧ (s * c.assoc + w).toNat < c.lru.length := by
  obtain ⟨_, _, _, _, _, _, _, h8⟩ := h
  obtain ⟨a, b⟩ := flat_bounds hs0 hs1 hw0 hw1
  rw [h8 hrp]
  exact ⟨a, by omega⟩

theorem access_eq (c : Cache) (addr rnd : Int) (hbs : 0 < c.block_size) (hns : 0 < c.num_sets) :
    access_cache c addr rnd =
      (scan_hit c (setIdx c addr) (tagOf c addr) c.assoc.toNat 0 >>= fun o =>
        match o with
        | some i =>
          if c.replacement = 0 then
            wr c.lru (setIdx c addr * c.assoc + i) 0 >>= fun lru0 =>
            age_others (setIdx c addr * c.assoc) i c.assoc.toNat 0 lru0 >>= fun lru1 =>
            .ok { c with hit := c.hit + 1, lru := lru1 }
          else
            .ok { c with hit := c.hit + 1 }
        | none =>
          if c.replacement = 0 then
            find_lru c.lru (setIdx c addr * c.assoc) (c.assoc - 1).toNat 1 0 >>= fun lru_index =>
            wr2 c.tag (setIdx c addr) lru_index (tagOf c addr) >>= fun tag' =>
            wr2 c.valid (setIdx c addr) lru_index 1 >>= fun valid' =>
            wr c.lru (setIdx c addr * c.assoc + lru_index) 0 >>= fun lru' =>
            .ok { c with miss := c.miss + 1, tag := tag', valid := valid', lru := lru' }
          else
            cmod rnd c.assoc >>= fun random_index =>
            wr2 c.tag (setIdx c addr) random_index (tagOf c addr) >>= fun tag' =>
            wr2 c.valid (setIdx c addr) random_index 1 >>= fun valid' =>
            .ok { c with miss := c.miss + 1, tag := tag', valid := valid' }) := by
  unfold access_cache cdiv cmod setIdx tagOf
  simp only [hbs.ne', hns.ne', if_false]
  rfl

theorem access_cases (c : Cache) (hwf : WF c) (addr rnd : Int) (ha : 0 ≤ addr) (hr : 0 ≤ rnd) :
    (∃ (i : Int) (lru' : List Int), 0 ≤ i ∧ i < c.assoc ∧
      MatchAt c (setIdx c addr) (tagOf c addr) i ∧
      (∀ j : Int, 0 ≤ j → j < i → ¬ MatchAt c (setIdx c addr) (tagOf c addr) j) ∧
      lru'.length = c.lru.length ∧
      (c.replacement ≠ 0 → lru' = c.lru) ∧
      (c.replacement = 0 → ∀ (p x : Int), rd c.lru p = .ok x →
        rd lru' p = .ok (if p = setIdx c addr * c.assoc + i then 0
          else if setIdx c addr * c.assoc ≤ p ∧ p < setIdx c addr * c.assoc + c.assoc then x + 1
          else x)) ∧
      access_cache c addr rnd = .ok { c with hit := c.hit + 1, lru := lru' }) ∨
    (∃ (v : Int) (tag' valid' : List (List Int)) (lru' : List Int),
      ¬ Resident c (setIdx c addr) (tagOf c addr) ∧ 0 ≤ v ∧ v < c.assoc ∧
      wr2 c.tag (setIdx c addr) v (tagOf c addr) = .ok tag' ∧
      wr2 c.valid (setIdx c addr) v 1 = .ok valid' ∧
      (c.replacement ≠ 0 → lru' = c.lru ∧ v = rnd.tmod c.assoc) ∧
      (c.replacement = 0 → wr c.lru (setIdx c addr * c.assoc + v) 0 = .ok lru') ∧
      access_cache c addr rnd =
        .ok { c with miss := c.miss + 1, tag := tag', valid := valid', lru := lru' }) := by
  have hwf' := hwf
  obtain ⟨hbs, hns, has, _, _, _, _, _⟩ := hwf'
  obtain ⟨hs0, hs1⟩ := setIdx_bounds hns addr ha hbs
  have hA : ((c.assoc.toNat : Nat) : Int) = c.assoc := Int.toNat_of_nonneg has.le
  have hnat : ∀ j : Int, 0 ≤ j → ((j.toNat : Nat) : Int) = j := fun j h => Int.toNat_of_nonneg h
  rw [access_eq c addr rnd hbs hns]
  generalize hS : setIdx c addr = s at *
  generalize hT : tagOf c addr = t at *
  have hreads : ∀ j : Nat, 0 ≤ j → j < 0 + c.assoc.toNat →
      (∃ v, rd2 c.valid s j = .ok v) ∧ (∃ t', rd2 c.tag s j = .ok t') := fun j _ hj =>
    wf_rd2 hwf hs0 hs1 (Int.natCast_nonneg j) (by omega)
  rcases scan_hit_spec c s t c.assoc.toNat 0 hreads with ⟨hsc, hno⟩ | ⟨j, _, hj, hsc, hm, hfirst⟩
  · -- miss
    right
    have hnres : ¬ Resident c s t := by
      rintro ⟨i, hi0, hi1, hmi⟩
      have := hno i.toNat (Nat.zero_le _) (by omega)
      rw [hnat i hi0] at this
      exact this hmi
    simp only [Nat.cast_zero] at hsc
    rw [hsc]
    by_cases hrp : c.replacement = 0
    · have hl : ∀ j : Nat, j < c.assoc.toNat → ∃ x, rd c.lru (s * c.assoc + j) = .ok x := by
        intro j hj
        obtain ⟨a, b⟩ := wf_lru hwf hrp hs0 hs1 (Int.natCast_nonneg j) (by omega)
        exact rd_ok_of_lt c.lru a b
      obtain ⟨v, hv, hvA⟩ := find_lru_spec c.lru (s * c.assoc) c.assoc.toNat hl
        (c.assoc - 1).toNat 1 0 (by omega) (by omega)
      simp only [Nat.cast_one, Nat.cast_zero] at hv
      have hv1 : (v : Int) < c.assoc := by omega
      obtain ⟨⟨x1, hx1⟩, ⟨x2, hx2⟩⟩ := wf_rd2 hwf hs0 hs1 (Int.natCast_nonneg v) hv1
      obtain ⟨tag', htag⟩ := wr2_ok_of_rd2 t hx2
      obtain ⟨valid', hvalid⟩ := wr2_ok_of_rd2 (1 : Int) hx1
      obtain ⟨a, b⟩ := wf_lru hwf hrp hs0 hs1 (Int.natCast_nonneg v) hv1
      have hw := wr_ok_of_lt c.lru 0 a b
      refine ⟨v, tag', valid', _, hnres, Int.natCast_nonneg v, hv1, htag, hvalid,
        fun h => absurd hrp h, fun _ => hw, ?_⟩
      simp only [hrp, if_true, hv, htag, hvalid, hw, bind, Except.bind]
    · have hv0 : 0 ≤ rnd.tmod c.assoc := Int.tmod_nonneg _ hr
      have hv1 : rnd.tmod c.assoc < c.assoc := Int.tmod_lt_of_pos _ has
      obtain ⟨⟨x1, hx1⟩, ⟨x2, hx2⟩⟩ := wf_rd2 hwf hs0 hs1 hv0 hv1
      obtain ⟨tag', htag⟩ := wr2_ok_of_rd2 t hx2
      obtain ⟨valid', hvalid⟩ := wr2_ok_of_rd2 (1 : Int) hx1
      refine ⟨rnd.tmod c.assoc, tag', valid', c.lru, hnres, hv0, hv1, htag, hvalid,
        fun _ => ⟨rfl, rfl⟩, fun h => absurd h hrp, ?_⟩
      simp [hrp, cmod, has.ne', htag, hvalid, bind, Except.bind]
  · -- hit
    left
    have hj1 : (j : Int) < c.assoc := by omega
    have hfirst' : ∀ j' : Int, 0 ≤ j' → j' < j → ¬ MatchAt c s t j' := by
      intro j' h0 h1
      have := hfirst j'.toNat (Nat.zero_le _) (by omega)
      rwa [hnat j' h0] at this
    simp only [Nat.cast_zero] at hsc
    rw [hsc]
    by_cases hrp : c.replacement = 0
    · obtain ⟨a, b⟩ := wf_lru hwf hrp hs0 hs1 (Int.natCast_nonneg j) hj1
      have hw := wr_ok_of_lt c.lru 0 a b
      obtain ⟨lru', hage, hlen, hrd⟩ := age_others_spec (s * c.assoc) j c.assoc.toNat 0
        (c.lru.set (s * c.assoc + j).toNat 0) (fun k _ hk => by
          simpa using wf_lru hwf hrp hs0 hs1 (Int.natCast_nonneg k) (by omega))
      simp only [Nat.cast_zero] at hage
      refine ⟨j, lru', Int.natCast_nonneg j, hj1, hm, hfirst', by simpa using hlen,
        fun h => absurd hrp h, ?_, ?_⟩
      · intro _ p x hp
        have h1 := rd_wr hw p
        by_cases hpj : p = s * c.assoc + j
        · rw [if_pos hpj] at h1
          rw [hrd p 0 h1, if_pos hpj]
          congr 1
          rw [if_neg]
          rintro ⟨_, _, h⟩
          exact h hpj
        · rw [if_neg hpj, hp] at h1
          rw [hrd p x h1, if_neg hpj]
          congr 1
          apply if_congr _ rfl rfl
          rw [hA]
          simp only [Nat.cast_zero, add_zero]
          constructor
          · rintro ⟨a, b, _⟩
            exact ⟨a, b⟩
          · rintro ⟨a, b⟩
            exact ⟨a, b, hpj⟩
      · simp [hrp, hw, hage, bind, Except.bind]
    · refine ⟨j, c.lru, Int.natCast_nonneg j, hj1, hm, hfirst', rfl, fun _ => rfl,
        fun h => absurd h hrp, ?_⟩
      simp [hrp, bind, Except.bind]

theorem access_step (c : Cache) (hwf : WF c) (addr rnd : Int) (ha : 0 ≤ addr) (hr : 0 ≤ rnd) :
    ∃ c', access_cache c addr rnd = .ok c' ∧ WF c' ∧
      c'.size = c.size ∧ c'.num_sets = c.num_sets ∧ c'.assoc = c.assoc ∧
      c'.block_size = c.block_size ∧ c'.replacement = c.replacement ∧
      ((Resident c (setIdx c addr) (tagOf c addr) ∧ IsHit c c' ∧
          c'.valid = c.valid ∧ c'.tag = c.tag) ∨
       (¬ Resident c (setIdx c addr) (tagOf c addr) ∧ IsMiss c c' ∧
          ∃ v : Int, 0 ≤ v ∧ v < c.assoc ∧
            wr2 c.tag (setIdx c addr) v (tagOf c addr) = .ok c'.tag ∧
            wr2 c.valid (setIdx c addr) v 1 = .ok c'.valid)) ∧
      (c.replacement ≠ 0 → c'.lru = c.lru) ∧
      (∀ (p x : Int), rd c.lru p = .ok x →
        (p < setIdx c addr * c.assoc ∨ setIdx c addr * c.assoc + c.assoc ≤ p) →
        rd c'.lru p = .ok x) := by
  obtain ⟨hbs, hns, has, h4, h5, h6, h7, h8⟩ := hwf
  rcases access_cases c ⟨hbs, hns, has, h4, h5, h6, h7, h8⟩ addr rnd ha hr with
    ⟨i, lru', hi0, hi1, hm, _, hlen, hnl, hl, hacc⟩ |
    ⟨v, tag', valid', lru', hnres, hv0, hv1, htag, hvalid, hnl, hl, hacc⟩
  · refine ⟨_, hacc, ⟨hbs, hns, has, h4, h5, h6, h7, fun h => by simpa [hlen] using h8 h⟩,
      rfl, rfl, rfl, rfl, rfl, Or.inl ⟨⟨i, hi0, hi1, hm⟩, ⟨rfl, rfl⟩, rfl, rfl⟩, hnl, ?_⟩
    intro p x hp hout
    by_cases hrp : c.replacement = 0
    · show rd lru' p = _
      rw [hl hrp p x hp]
      congr 1
      rw [if_neg (by omega), if_neg (by omega)]
    · show rd lru' p = _
      rw [hnl hrp]
      exact hp
  · obtain ⟨t1, t2⟩ := wr2_shape htag h7
    obtain ⟨v1, v2⟩ := wr2_shape hvalid h5
    have hlen : lru'.length = c.lru.length := by
      by_cases hrp : c.replacement = 0
      · exact wr_length (hl hrp)
      · rw [(hnl hrp).1]
    refine ⟨_, hacc, ⟨hbs, hns, has, v1.trans h4, v2, t1.trans h6, t2,
        fun h => by simpa [hlen] using h8 h⟩,
      rfl, rfl, rfl, rfl, rfl, Or.inr ⟨hnres, ⟨rfl, rfl⟩, v, hv0, hv1, htag, hvalid⟩,
      fun h => (hnl h).1, ?_⟩
    intro p x hp hout
    by_cases hrp : c.replacement = 0
    · show rd lru' p = _
      rw [rd_wr (hl hrp) p, if_neg (by omega)]
      exact hp
    · show rd lru' p = _
      rw [(hnl hrp).1]
      exact hp

/-! ## `init_cache` -/

theorem init_eq (c0 : Cache) (assoc rp : Int) (h : assoc * c0.block_size ≠ 0) :
    init_cache c0 assoc rp = .ok { c0 with
      assoc := assoc
      num_sets := c0.size.tdiv (assoc * c0.block_size)
      replacement := rp
      hit := 0
      miss := 0
      tag := List.replicate (c0.size.tdiv (assoc * c0.block_size)).toNat
        (List.replicate assoc.toNat (-1))
      valid := List.replicate (c0.size.tdiv (assoc * c0.block_size)).toNat
        (List.replicate assoc.toNat 0)
      lru := if rp = 0 then
          List.replicate (c0.size.tdiv (assoc * c0.block_size) * assoc).toNat 0
        else c0.lru } := by
  unfold init_cache cdiv
  simp only [h, if_false]
  rfl

theorem num_sets_pos {size bs assoc : Int} (hs : 0 < size) (hb : 0 < bs) (ha : 0 < assoc)
    (hd : bs * assoc ∣ size) :
    1 ≤ size.tdiv (assoc * bs) ∧ size.tdiv (assoc * bs) * assoc * bs = size := by
  have hpos : 0 < assoc * bs := mul_pos ha hb
  rw [Int.tdiv_eq_ediv hs.le hpos.le]
  obtain ⟨k, hk⟩ := hd
  have hk' : size = assoc * bs * k := by rw [hk]; ring
  have hq : size / (assoc * bs) = k := by
    rw [hk']
    exact Int.mul_ediv_cancel_left k hpos.ne'
  rw [hq]
  constructor
  · by_contra hc
    have hk0 : k ≤ 0 := by omega
    have : assoc * bs * k ≤ 0 := mul_nonpos_of_nonneg_of_nonpos hpos.le hk0
    omega
  · rw [hk']
    ring

theorem init_wf (c0 : Cache) (assoc rp : Int) (hs : 0 < c0.size) (hb : 0 < c0.block_size)
    (ha : 0 < assoc) (hd : c0.block_size * assoc ∣ c0.size) :
    ∃ c, init_cache c0 assoc rp = .ok c ∧ WF c ∧ c.hit = 0 ∧ c.miss = 0 ∧
      c.assoc = assoc ∧ c.block_size = c0.block_size ∧ c.size = c0.size ∧
      c.replacement = rp ∧ c.num_sets = c0.size.tdiv (assoc * c0.block_size) ∧
      (∀ s w v, rd2 c.valid s w = .ok v → v = 0) := by
  have hne : assoc * c0.block_size ≠ 0 := (mul_pos ha hb).ne'
  obtain ⟨h1, _⟩ := num_sets_pos hs hb ha hd
  refine ⟨_, init_eq c0 assoc rp hne, ⟨hb, by show 0 < c0.size.tdiv _; omega, ha, ?_, ?_, ?_, ?_, ?_⟩,
    rfl, rfl, rfl, rfl, rfl, rfl, rfl, ?_⟩
  · simp
  · intro row hrow
    rw [List.eq_of_mem_replicate hrow]
    simp
  · simp
  · intro row hrow
    rw [List.eq_of_mem_replicate hrow]
    simp
  · intro h
    have h' : rp = 0 := h
    simp [h']
  · intro s w v hv
    obtain ⟨row, hr1, hr2⟩ := rd2_eq_ok.mp hv
    have hrow := List.eq_of_mem_replicate (List.getElem?_mem (rd_eq_ok.mp hr1).2)
    rw [hrow] at hr2
    exact List.eq_of_mem_replicate (List.getElem?_mem (rd_eq_ok.mp hr2).2)

/-! ## Access sequences -/

theorem run_spec (tr : List (Int × Int)) : ∀ (c : Cache), WF c →
    (∀ p ∈ tr, 0 ≤ p.1 ∧ 0 ≤ p.2) →
    ∃ c', run c tr = .ok c' ∧ WF c' ∧ c'.hit + c'.miss = c.hit + c.miss + tr.length ∧
      c'.num_sets = c.num_sets ∧ c'.assoc = c.assoc ∧ c'.block_size = c.block_size ∧
      c'.replacement = c.replacement ∧ c'.size = c.size := by
  induction tr with
  | nil =>
    intro c hwf _
    exact ⟨c, rfl, hwf, by simp, rfl, rfl, rfl, rfl, rfl⟩
  | cons p rest ih =>
    intro c hwf hnn
    obtain ⟨addr, rnd⟩ := p
    obtain ⟨ha, hr⟩ := hnn (addr, rnd) (List.mem_cons_self _ _)
    obtain ⟨c1, hacc, hwf1, e1, e2, e3, e4, e5, hcase, _, _⟩ := access_step c hwf addr rnd ha hr
    obtain ⟨c2, hrun, hwf2, hsum, f2, f3, f4, f5, f1⟩ :=
      ih c1 hwf1 (fun q hq => hnn q (List.mem_cons_of_mem _ hq))
    refine ⟨c2, ?_, hwf2, ?_, f2.trans e2, f3.trans e3, f4.trans e4, f5.trans e5, f1.trans e1⟩
    · simp only [run, bind, Except.bind, hacc]
      exact hrun
    · rw [hsum]
      simp only [List.length_cons]
      push_cast
      rcases hcase with ⟨_, ⟨a, b⟩, _⟩ | ⟨_, ⟨a, b⟩, _⟩ <;> omega

/-! ## Claims -/

/-- C1: for every configuration with positive `size`, `block_size`, `assoc` where
`block_size * assoc` divides `size`, every policy `rp`, and every finite sequence of
non-negative addresses (each with a non-negative `rand()` value) fed one by one to
`access_cache` from the state `init_cache` produces, every access returns and after the
first `k` accesses `hit + miss = k`. -/
theorem hit_plus_miss_eq_count (c0 : Cache) (assoc rp : Int) (hs : 0 < c0.size)
    (hb : 0 < c0.block_size) (ha : 0 < assoc) (hd : c0.block_size * assoc ∣ c0.size)
    (tr : List (Int × Int)) (hnn : ∀ p ∈ tr, 0 ≤ p.1 ∧ 0 ≤ p.2) :
    ∃ c, init_cache c0 assoc rp = .ok c ∧
      ∀ k : Nat, k ≤ tr.length →
        ∃ ck, run c (tr.take k) = .ok ck ∧ ck.hit + ck.miss = k := by
  obtain ⟨c, hinit, hwf, hh, hm, _⟩ := init_wf c0 assoc rp hs hb ha hd
  refine ⟨c, hinit, ?_⟩
  intro k hk
  obtain ⟨ck, hrun, _, hsum, _⟩ := run_spec (tr.take k) c hwf
    (fun p hp => hnn p (List.mem_of_mem_take hp))
  refine ⟨ck, hrun, ?_⟩
  rw [hsum, hh, hm, List.length_take, Nat.min_eq_left hk]
  simp

theorem hit_plus_miss_eq_count_witness :
    ∃ c, init_cache (blank 32 4) 2 0 = .ok c ∧
      ∀ k : Nat, k ≤ [((0 : Int), (0 : Int)), (16, 0), (0, 0)].length →
        ∃ ck, run c ([((0 : Int), (0 : Int)), (16, 0), (0, 0)].take k) = .ok ck ∧
          ck.hit + ck.miss = k :=
  hit_plus_miss_eq_count (blank 32 4) 2 0 (by decide) (by decide) (by decide) (by decide)
    [(0, 0), (16, 0), (0, 0)] (by decide)

/-- C2: for every well-formed cache state and non-negative address, `access_cache` returns,
and it is a Hit (`hit` incremented by exactly 1, `miss` unchanged) if and only if some way
`i < assoc` of set `(addr / block_size) % num_sets` has `valid != 0` and stored tag
`(addr / block_size) / num_sets`; otherwise it is a Miss (`miss` incremented by exactly 1,
`hit` unchanged).  Neither counter decreases. -/
theorem access_hit_iff_resident (c : Cache) (hwf : WF c) (addr rnd : Int) (ha : 0 ≤ addr)
    (hr : 0 ≤ rnd) :
    ∃ c', access_cache c addr rnd = .ok c' ∧
      (IsHit c c' ↔ ∃ i, 0 ≤ i ∧ i < c.assoc ∧ ∃ v,
        rd2 c.valid ((addr.tdiv c.block_size).tmod c.num_sets) i = .ok v ∧ v ≠ 0 ∧
        rd2 c.tag ((addr.tdiv c.block_size).tmod c.num_sets) i =
          .ok ((addr.tdiv c.block_size).tdiv c.num_sets)) ∧
      (IsMiss c c' ↔ ¬ ∃ i, 0 ≤ i ∧ i < c.assoc ∧ ∃ v,
        rd2 c.valid ((addr.tdiv c.block_size).tmod c.num_sets) i = .ok v ∧ v ≠ 0 ∧
        rd2 c.tag ((addr.tdiv c.block_size).tmod c.num_sets) i =
          .ok ((addr.tdiv c.block_size).tdiv c.num_sets)) ∧
      c.hit ≤ c'.hit ∧ c.miss ≤ c'.miss := by
  obtain ⟨c', hacc, _, _, _, _, _, _, hcase, _, _⟩ := access_step c hwf addr rnd ha hr
  refine ⟨c', hacc, ?_⟩
  rcases hcase with ⟨hres, ⟨h1, h2⟩, _⟩ | ⟨hres, ⟨h1, h2⟩, _⟩
  · refine ⟨⟨fun _ => hres, fun _ => ⟨h1, h2⟩⟩, ⟨?_, fun h => absurd hres h⟩, by omega, by omega⟩
    rintro ⟨h3, _⟩
    omega
  · refine ⟨⟨?_, fun h => absurd h hres⟩, ⟨fun _ => hres, fun _ => ⟨h1, h2⟩⟩, by omega, by omega⟩
    rintro ⟨h3, _⟩
    omega

theorem access_hit_iff_resident_witness :
    WF warm2way ∧ ∃ c', access_cache warm2way 48 0 = .ok c' ∧ c'.hit = 1 ∧ c'.miss = 0 := by
  refine ⟨by decide, ?_⟩
  obtain ⟨c', h1, h2, _, _⟩ := access_hit_iff_resident warm2way (by decide) 48 0
    (by decide) (by decide)
  have hres := h2.mpr ⟨0, by decide, by decide, 1, rfl, by decide, rfl⟩
  exact ⟨c', h1, hres.1.trans (by decide), hres.2.trans (by decide)⟩

theorem lru_ignores_rand (c : Cache) (h : c.replacement = 0) (addr r r' : Int) :
    access_cache c addr r = access_cache c addr r' := by
  unfold access_cache
  simp only [h, if_true]

/-- C3 (the code at the failing input): in the fresh 2-way LRU cache of 32 bytes with
4-byte blocks, addresses 0, 16 and 32 map to set 0 with tags 0, 1 and 2.  After the
accesses 0, 16, 0, 32 all four were misses, every one of them was installed in way 0, way 1
of set 0 is still invalid, and the set holds only tag 2; a following access to address 0
is a Miss, not a Hit. -/
theorem lru_two_way_keeps_only_last :
    ∃ c c1 c2, init_cache (blank 32 4) 2 0 = .ok c ∧
      [setIdx c 0, setIdx c 16, setIdx c 32] = [0, 0, 0] ∧
      [tagOf c 0, tagOf c 16, tagOf c 32] = [0, 1, 2] ∧
      run c [(0, 0), (16, 0), (0, 0), (32, 0)] = .ok c1 ∧
      c1.hit = 0 ∧ c1.miss = 4 ∧
      c1.valid = [[1, 0], [0, 0], [0, 0], [0, 0]] ∧
      c1.tag = [[2, -1], [-1, -1], [-1, -1], [-1, -1]] ∧
      access_cache c1 0 0 = .ok c2 ∧ c2.hit = c1.hit ∧ c2.miss = c1.miss + 1 :=
  ⟨_, _, _, rfl, rfl, rfl, rfl, rfl, rfl, rfl, rfl, rfl, rfl, rfl⟩

/-- C4 (the code at the failing input): in the fresh fully-associative LRU cache
(`size = 32`, `block_size = 4`, `assoc = 8`, one set), after the eight accesses to blocks
0..7 only way 0 is valid and it holds block 7: each of the accesses 2..8 overwrote the
valid way 0, so seven evictions have already happened and seven ways are still empty; the
ninth access (block 8) is a Miss and overwrites way 0 once more. -/
theorem fully_assoc_fills_only_way_zero :
    ∃ c c1 c2, init_cache (blank 32 4) 8 0 = .ok c ∧ c.num_sets = 1 ∧
      run c [(0, 0), (4, 0), (8, 0), (12, 0), (16, 0), (20, 0), (24, 0), (28, 0)] = .ok c1 ∧
      c1.hit = 0 ∧ c1.miss = 8 ∧
      c1.valid = [[1, 0, 0, 0, 0, 0, 0, 0]] ∧
      c1.tag = [[7, -1, -1, -1, -1, -1, -1, -1]] ∧
      access_cache c1 32 0 = .ok c2 ∧ c2.hit = 0 ∧ c2.miss = 9 ∧
      c2.valid = [[1, 0, 0, 0, 0, 0, 0, 0]] ∧
      c2.tag = [[8, -1, -1, -1, -1, -1, -1, -1]] :=
  ⟨_, _, _, rfl, rfl, rfl, rfl, rfl, rfl, rfl, rfl, rfl, rfl, rfl, rfl⟩

/-- C7: with `size = 32` and `block_size = 4`, `init_cache(assoc = 1, LRU)` gives
`num_sets = 8`; the addresses 0, 32, 0, 64, 0 (blocks 0, 8, 0, 16, 0) all map to set 0
with tags 0, 1, 0, 2, 0, and accessing them in order (whatever `rand()` would return)
yields Miss, Miss, Miss, Miss, Miss: final `hit = 0` and `miss = 5`. -/
theorem end_to_end_direct_mapped (r1 r2 r3 r4 r5 : Int) :
    ∃ c c1 c2 c3 c4 c5, init_cache (blank 32 4) 1 0 = .ok c ∧ c.num_sets = 8 ∧
      [0, 32, 0, 64, 0].map (fun a : Int => a.tdiv c.block_size) = [0, 8, 0, 16, 0] ∧
      [0, 32, 0, 64, 0].map (setIdx c) = [0, 0, 0, 0, 0] ∧
      [0, 32, 0, 64, 0].map (tagOf c) = [0, 1, 0, 2, 0] ∧
      access_cache c 0 r1 = .ok c1 ∧ IsMiss c c1 ∧
      access_cache c1 32 r2 = .ok c2 ∧ IsMiss c1 c2 ∧
      access_cache c2 0 r3 = .ok c3 ∧ IsMiss c2 c3 ∧
      access_cache c3 64 r4 = .ok c4 ∧ IsMiss c3 c4 ∧
      access_cache c4 0 r5 = .ok c5 ∧ IsMiss c4 c5 ∧
      c5.hit = 0 ∧ c5.miss = 5 :=
  ⟨_, _, _, _, _, _, rfl, rfl, rfl, rfl, rfl,
    (lru_ignores_rand _ rfl 0 r1 0).trans rfl, ⟨rfl, rfl⟩,
    (lru_ignores_rand _ rfl 32 r2 0).trans rfl, ⟨rfl, rfl⟩,
    (lru_ignores_rand _ rfl 0 r3 0).trans rfl, ⟨rfl, rfl⟩,
    (lru_ignores_rand _ rfl 64 r4 0).trans rfl, ⟨rfl, rfl⟩,
    (lru_ignores_rand _ rfl 0 r5 0).trans rfl, ⟨rfl, rfl⟩, rfl, rfl⟩

theorem setIdx_congr {c c' : Cache} (h1 : c'.block_size = c.block_size)
    (h2 : c'.num_sets = c.num_sets) (addr : Int) :
    setIdx c' addr = setIdx c addr ∧ tagOf c' addr = tagOf c addr := by
  unfold setIdx tagOf
  rw [h1, h2]
  exact ⟨rfl, rfl⟩

/-- After any access the accessed block is resident in its set. -/
theorem access_makes_resident (c : Cache) (hwf : WF c) (addr rnd : Int) (ha : 0 ≤ addr)
    (hr : 0 ≤ rnd) :
    ∃ c', access_cache c addr rnd = .ok c' ∧ WF c' ∧
      Resident c' (setIdx c' addr) (tagOf c' addr) := by
  obtain ⟨c', hacc, hwf', _, e2, e3, e4, _, hcase, _, _⟩ := access_step c hwf addr rnd ha hr
  refine ⟨c', hacc, hwf', ?_⟩
  obtain ⟨hs, ht⟩ := setIdx_congr e4 e2 addr
  rw [hs, ht]
  rcases hcase with ⟨⟨i, hi0, hi1, v, h1, h2, h3⟩, _, hv, htg⟩ | ⟨_, _, v, hv0, hv1, htg, hvl⟩
  · exact ⟨i, hi0, by rw [e3]; exact hi1, v, by rw [hv]; exact h1, h2, by rw [htg]; exact h3⟩
  · refine ⟨v, hv0, by rw [e3]; exact hv1, 1, ?_, by decide, ?_⟩
    · rw [rd2_wr2 hvl, if_pos ⟨rfl, rfl⟩]
    · rw [rd2_wr2 htg, if_pos ⟨rfl, rfl⟩]

theorem hit_of_resident (c : Cache) (hwf : WF c) (addr rnd : Int) (ha : 0 ≤ addr)
    (hr : 0 ≤ rnd) (hres : Resident c (setIdx c addr) (tagOf c addr)) :
    ∃ c', access_cache c addr rnd = .ok c' ∧ IsHit c c' := by
  obtain ⟨c', hacc, _, _, _, _, _, _, hcase, _, _⟩ := access_step c hwf addr rnd ha hr
  rcases hcase with ⟨_, h, _⟩ | ⟨h, _⟩
  · exact ⟨c', hacc, h⟩
  · exact absurd hres h

theorem miss_of_not_resident (c : Cache) (hwf : WF c) (addr rnd : Int) (ha : 0 ≤ addr)
    (hr : 0 ≤ rnd) (hres : ¬ Resident c (setIdx c addr) (tagOf c addr)) :
    ∃ c', access_cache c addr rnd = .ok c' ∧ IsMiss c c' := by
  obtain ⟨c', hacc, _, _, _, _, _, _, hcase, _, _⟩ := access_step c hwf addr rnd ha hr
  rcases hcase with ⟨h, _⟩ | ⟨_, h, _⟩
  · exact absurd h hres
  · exact ⟨c', hacc, h⟩

theorem fresh_not_resident {c : Cache} (h : ∀ s w v, rd2 c.valid s w = .ok v → v = 0)
    (s t : Int) : ¬ Resident c s t := by
  rintro ⟨i, _, _, v, h1, h2, _⟩
  exact h2 (h s i v h1)

/-- C5: in every well-formed cache state, under either policy and for any values of
`rand()`, an access to a non-negative address `a` immediately followed by a second access
to `a` makes the second access a Hit; and when the first access is made on a freshly
initialised cache it is a Miss, so the pair yields Miss then Hit. -/
theorem repeat_access_hits :
    (∀ (c : Cache) (a r1 r2 : Int), WF c → 0 ≤ a → 0 ≤ r1 → 0 ≤ r2 →
      ∃ c1 c2, access_cache c a r1 = .ok c1 ∧ access_cache c1 a r2 = .ok c2 ∧ IsHit c1 c2) ∧
    (∀ (c0 : Cache) (assoc rp a r1 r2 : Int), 0 < c0.size → 0 < c0.block_size → 0 < assoc →
      c0.block_size * assoc ∣ c0.size → 0 ≤ a → 0 ≤ r1 → 0 ≤ r2 →
      ∃ c c1 c2, init_cache c0 assoc rp = .ok c ∧
        access_cache c a r1 = .ok c1 ∧ IsMiss c c1 ∧
        access_cache c1 a r2 = .ok c2 ∧ IsHit c1 c2) := by
  have part1 : ∀ (c : Cache) (a r1 r2 : Int), WF c → 0 ≤ a → 0 ≤ r1 → 0 ≤ r2 →
      ∃ c1 c2, access_cache c a r1 = .ok c1 ∧ access_cache c1 a r2 = .ok c2 ∧
        IsHit c1 c2 := by
    intro c a r1 r2 hwf ha h1 h2
    obtain ⟨c1, hacc1, hwf1, hres⟩ := access_makes_resident c hwf a r1 ha h1
    obtain ⟨c2, hacc2, hhit⟩ := hit_of_resident c1 hwf1 a r2 ha h2 hres
    exact ⟨c1, c2, hacc1, hacc2, hhit⟩
  refine ⟨part1, ?_⟩
  intro c0 assoc rp a r1 r2 hs hb has hd ha h1 h2
  obtain ⟨c, hinit, hwf, _, _, _, _, _, _, _, hfresh⟩ := init_wf c0 assoc rp hs hb has hd
  obtain ⟨c1, hacc1, hmiss⟩ := miss_of_not_resident c hwf a r1 ha h1
    (fresh_not_resident hfresh _ _)
  obtain ⟨c1', c2, hacc1', hacc2, hhit⟩ := part1 c a r1 r2 hwf ha h1 h2
  rw [hacc1] at hacc1'
  injection hacc1' with e
  subst e
  exact ⟨c, c1, c2, hinit, hacc1, hmiss, hacc2, hhit⟩

theorem repeat_access_hits_witness :
    (WF warm2way ∧
      ∃ c1 c2, access_cache warm2way 100 7 = .ok c1 ∧ access_cache c1 100 9 = .ok c2 ∧
        IsHit c1 c2) ∧
    ((4 : Int) * 4 ∣ 32 ∧
      ∃ c c1 c2, init_cache (blank 32 4) 4 1 = .ok c ∧
        access_cache c 100 7 = .ok c1 ∧ IsMiss c c1 ∧
        access_cache c1 100 9 = .ok c2 ∧ IsHit c1 c2) :=
  ⟨⟨by decide, repeat_access_hits.1 warm2way 100 7 9 (by decide) (by decide) (by decide)
      (by decide)⟩,
   ⟨by decide, repeat_access_hits.2 (blank 32 4) 4 1 100 7 9 (by decide) (by decide)
      (by decide) (by decide) (by decide) (by decide) (by decide)⟩⟩

theorem same_set_next_tag {c : Cache} (hbs : 0 < c.block_size) (hns : 0 < c.num_sets)
    {a b : Int} (ha : 0 ≤ a)
    (hd : b.tdiv c.block_size = a.tdiv c.block_size + c.num_sets) :
    setIdx c a = setIdx c b ∧ tagOf c b = tagOf c a + 1 := by
  have hq : 0 ≤ a.tdiv c.block_size := by
    rw [Int.tdiv_eq_ediv ha hbs.le]
    exact Int.ediv_nonneg ha hbs.le
  unfold setIdx tagOf
  rw [hd, Int.tmod_eq_emod hq hns.le, Int.tmod_eq_emod (by omega) hns.le,
    Int.tdiv_eq_ediv hq hns.le, Int.tdiv_eq_ediv (by omega) hns.le]
  constructor
  · rw [Int.add_emod_self]
  · rw [Int.add_ediv_of_dvd_right (dvd_refl _), Int.ediv_self hns.ne']

theorem thrash_run (n : Nat) : ∀ (c : Cache) (x y : Int) (tr : List (Int × Int)),
    WF c → c.assoc = 1 → 0 ≤ x → 0 ≤ y →
    setIdx c x = setIdx c y → tagOf c x ≠ tagOf c y →
    ¬ Resident c (setIdx c x) (tagOf c x) →
    tr.map Prod.fst = alternate x y n → (∀ p ∈ tr, 0 ≤ p.2) →
    ∃ c', run c tr = .ok c' ∧ c'.hit = c.hit ∧ c'.miss = c.miss + n := by
  induction n with
  | zero =>
    intro c x y tr _ _ _ _ _ _ _ htr _
    have : tr = [] := by simpa [alternate] using htr
    subst this
    exact ⟨c, rfl, rfl, by simp⟩
  | succ n ih =>
    intro c x y tr hwf has hx hy hset htag hnres htr hrnd
    match tr, htr, hrnd with
    | [], htr, _ => simp [alternate] at htr
    | (a, r) :: rest, htr, hrnd =>
      simp only [alternate, List.map_cons, List.cons.injEq] at htr
      obtain ⟨hax, hrest⟩ := htr
      subst hax
      have hr : 0 ≤ r := hrnd (a, r) (List.mem_cons_self _ _)
      obtain ⟨c1, hacc, hwf1, _, e2, e3, e4, _, hcase, _, _⟩ := access_step c hwf a r hx hr
      rcases hcase with ⟨h, _⟩ | ⟨_, ⟨hm1, hm2⟩, v, hv0, hv1, htg, _⟩
      · exact absurd h hnres
      · have hv : v = 0 := by omega
        subst hv
        obtain ⟨sa, ta⟩ := setIdx_congr e4 e2 a
        obtain ⟨sy, ty⟩ := setIdx_congr e4 e2 y
        have hnres1 : ¬ Resident c1 (setIdx c1 y) (tagOf c1 y) := by
          rintro ⟨i, hi0, hi1, w, _, _, h3⟩
          have hi : i = 0 := by omega
          subst hi
          rw [sy, ty, ← hset, rd2_wr2 htg, if_pos ⟨rfl, rfl⟩] at h3
          injection h3 with h3
          exact htag h3
        obtain ⟨c2, hrun, hh, hm⟩ := ih c1 y a rest hwf1 (e3.trans has) hy hx
          (by rw [sa, sy, hset]) (by rw [ta, ty]; exact fun h => htag h.symm) hnres1 hrest
          (fun p hp => hrnd p (List.mem_cons_of_mem _ hp))
        refine ⟨c2, ?_, by omega, by push_cast; omega⟩
        simp only [run, bind, Except.bind, hacc]
        exact hrun

/-- C6: in a cache with `assoc = 1` and `num_sets >= 1`, two non-negative addresses whose
block numbers `addr / block_size` differ by exactly `num_sets` have equal set index and
tags that differ by 1; and accessing the two alternately (starting with either one), for
any number `n` of accesses from a freshly initialised direct-mapped cache under either
policy, makes every access a Miss: `hit` stays 0 and `miss = n`. -/
theorem direct_mapped_thrashing :
    (∀ (c : Cache) (a b : Int), WF c → c.assoc = 1 → 0 ≤ a → 0 ≤ b →
      b.tdiv c.block_size = a.tdiv c.block_size + c.num_sets →
      setIdx c a = setIdx c b ∧ tagOf c b = tagOf c a + 1 ∧ tagOf c a ≠ tagOf c b) ∧
    (∀ (c0 : Cache) (rp a b : Int), 0 < c0.size → 0 < c0.block_size →
      c0.block_size * 1 ∣ c0.size → 0 ≤ a → 0 ≤ b →
      ∃ c, init_cache c0 1 rp = .ok c ∧ c.assoc = 1 ∧ 1 ≤ c.num_sets ∧
        (b.tdiv c.block_size = a.tdiv c.block_size + c.num_sets →
          ∀ (n : Nat) (tr : List (Int × Int)),
            (tr.map Prod.fst = alternate a b n ∨ tr.map Prod.fst = alternate b a n) →
            (∀ p ∈ tr, 0 ≤ p.2) →
            ∃ c', run c tr = .ok c' ∧ c'.hit = 0 ∧ c'.miss = n)) := by
  constructor
  · intro c a b hwf _ ha _ hd
    obtain ⟨h1, h2⟩ := same_set_next_tag hwf.1 hwf.2.1 ha hd
    exact ⟨h1, h2, by omega⟩
  · intro c0 rp a b hs hb hdvd ha hb'
    obtain ⟨c, hinit, hwf, hh, hm, has, _, _, _, _, hfresh⟩ :=
      init_wf c0 1 rp hs hb (by decide) hdvd
    refine ⟨c, hinit, has, by have := hwf.2.1; omega, ?_⟩
    intro hd n tr htr hrnd
    obtain ⟨h1, h2⟩ := same_set_next_tag hwf.1 hwf.2.1 ha hd
    rcases htr with htr | htr
    · obtain ⟨c', hrun, e1, e2⟩ := thrash_run n c a b tr hwf has ha hb' h1 (by omega)
        (fresh_not_resident hfresh _ _) htr hrnd
      exact ⟨c', hrun, by omega, by omega⟩
    · obtain ⟨c', hrun, e1, e2⟩ := thrash_run n c b a tr hwf has hb' ha h1.symm (by omega)
        (fresh_not_resident hfresh _ _) htr hrnd
      exact ⟨c', hrun, by omega, by omega⟩

theorem direct_mapped_thrashing_witness :
    (WF warm1way ∧ warm1way.assoc = 1 ∧
      setIdx warm1way 5 = setIdx warm1way 38 ∧ tagOf warm1way 38 = tagOf warm1way 5 + 1 ∧
      tagOf warm1way 5 ≠ tagOf warm1way 38) ∧
    ((4 : Int) * 1 ∣ 32 ∧
      ∃ c, init_cache (blank 32 4) 1 1 = .ok c ∧ c.assoc = 1 ∧ 1 ≤ c.num_sets ∧
        ∃ c', run c [(5, 3), (38, 1), (5, 4)] = .ok c' ∧ c'.hit = 0 ∧ c'.miss = (3 : Nat)) := by
  refine ⟨⟨by decide, by decide, direct_mapped_thrashing.1 warm1way 5 38 (by decide)
    (by decide) (by decide) (by decide) (by decide)⟩, by decide, ?_⟩
  obtain ⟨c, h1, h2, h3, h4⟩ := direct_mapped_thrashing.2 (blank 32 4) 1 5 38 (by decide)
    (by decide) (by decide) (by decide) (by decide)
  have h1' := h1
  cases h1'
  exact ⟨_, h1, h2, h3, h4 (by decide) 3 [(5, 3), (38, 1), (5, 4)]
    (Or.inl (by decide)) (by decide)⟩

theorem other_set_outside {s s' a w : Int} (ha : 0 < a) (hne : s' ≠ s) (hw0 : 0 ≤ w)
    (hw1 : w < a) : s' * a + w < s * a ∨ s * a + a ≤ s' * a + w := by
  rcases lt_or_gt_of_ne hne with h | h
  · left
    have h2 : (s' + 1) * a ≤ s * a := mul_le_mul_of_nonneg_right (by omega) ha.le
    have : (s' + 1) * a = s' * a + a := by ring
    omega
  · right
    have h2 : (s + 1) * a ≤ s' * a := mul_le_mul_of_nonneg_right (by omega) ha.le
    have : (s + 1) * a = s * a + a := by ring
    omega

/-- C10: for every well-formed state, either policy and every non-negative address mapping
to set `s`, `access_cache` returns and leaves the valid flag, tag and recency value of
every way of every set other than `s` unchanged (recency read at the flattened index
`set * assoc + way`), leaves `size`, `num_sets`, `assoc`, `block_size` and `replacement`
unchanged, and changes exactly one of the two counters (by one). -/
theorem access_frame (c : Cache) (hwf : WF c) (addr rnd : Int) (ha : 0 ≤ addr)
    (hr : 0 ≤ rnd) :
    ∃ c', access_cache c addr rnd = .ok c' ∧
      (∀ s' w : Int, s' ≠ setIdx c addr →
        rd2 c'.valid s' w = rd2 c.valid s' w ∧ rd2 c'.tag s' w = rd2 c.tag s' w) ∧
      (∀ s' w : Int, 0 ≤ s' → s' < c.num_sets → s' ≠ setIdx c addr → 0 ≤ w → w < c.assoc →
        rd c'.lru (s' * c.assoc + w) = rd c.lru (s' * c.assoc + w)) ∧
      c'.size = c.size ∧ c'.num_sets = c.num_sets ∧ c'.assoc = c.assoc ∧
      c'.block_size = c.block_size ∧ c'.replacement = c.replacement ∧
      ((c'.hit = c.hit + 1 ∧ c'.miss = c.miss) ∨ (c'.hit = c.hit ∧ c'.miss = c.miss + 1)) := by
  obtain ⟨c', hacc, _, e1, e2, e3, e4, e5, hcase, hnl, hl⟩ := access_step c hwf addr rnd ha hr
  refine ⟨c', hacc, ?_, ?_, e1, e2, e3, e4, e5, ?_⟩
  · intro s' w hne
    rcases hcase with ⟨_, _, hv, ht⟩ | ⟨_, _, v, _, _, ht, hv⟩
    · rw [hv, ht]
      exact ⟨rfl, rfl⟩
    · rw [rd2_wr2 hv, rd2_wr2 ht, if_neg (fun h => hne h.1), if_neg (fun h => hne h.1)]
      exact ⟨rfl, rfl⟩
  · intro s' w hs0 hs1 hne hw0 hw1
    by_cases hrp : c.replacement = 0
    · obtain ⟨a, b⟩ := wf_lru hwf hrp hs0 hs1 hw0 hw1
      obtain ⟨x, hx⟩ := rd_ok_of_lt c.lru a b
      rw [hx]
      exact hl _ x hx (other_set_outside hwf.2.2.1 hne hw0 hw1)
    · rw [hnl hrp]
  · rcases hcase with ⟨_, ⟨a, b⟩, _⟩ | ⟨_, ⟨a, b⟩, _⟩
    · exact Or.inl ⟨a, b⟩
    · exact Or.inr ⟨b, a⟩

theorem access_frame_witness :
    WF warm2way ∧ ∃ c', access_cache warm2way 52 0 = .ok c' ∧
      (∀ s' w : Int, s' ≠ setIdx warm2way 52 →
        rd2 c'.valid s' w = rd2 warm2way.valid s' w ∧
        rd2 c'.tag s' w = rd2 warm2way.tag s' w) ∧
      (∀ s' w : Int, 0 ≤ s' → s' < warm2way.num_sets → s' ≠ setIdx warm2way 52 →
        0 ≤ w → w < warm2way.assoc →
        rd c'.lru (s' * warm2way.assoc + w) = rd warm2way.lru (s' * warm2way.assoc + w)) ∧
      c'.size = warm2way.size ∧ c'.num_sets = warm2way.num_sets ∧
      c'.assoc = warm2way.assoc ∧ c'.block_size = warm2way.block_size ∧
      c'.replacement = warm2way.replacement ∧
      ((c'.hit = warm2way.hit + 1 ∧ c'.miss = warm2way.miss) ∨
        (c'.hit = warm2way.hit ∧ c'.miss = warm2way.miss + 1)) :=
  ⟨by decide, access_frame warm2way (by decide) 52 0 (by decide) (by decide)⟩

/-- C8 (as stated, refuted): `init_cache` with a policy other than LRU (`rp = 1`) on the
32-byte, 4-byte-block, direct-mapped configuration returns a state in which the recency of
way 0 of set 0 is not 0: no recency array has been allocated, so the read at flattened
index `0 * assoc + 0` is out of bounds. -/
theorem init_random_no_recency :
    ∃ c, init_cache (blank 32 4) 1 1 = .ok c ∧ c.lru = [] ∧
      rd c.lru (0 * c.assoc + 0) ≠ .ok 0 :=
  ⟨_, rfl, rfl, by simp [rd, blank]⟩

/-- C8 (amended): for every configuration with positive `size`, `block_size`, `assoc` where
`block_size * assoc` divides `size`, and every policy `rp`, `init_cache` returns a state
with `num_sets = size / (block_size * assoc) >= 1` (so `num_sets * assoc * block_size =
size`), exactly `num_sets` sets of `assoc` ways each in `valid` and `tag`, every way with
`valid = 0`, and `hit = miss = 0`; when `rp = 0` (LRU) the recency array has
`num_sets * assoc` entries and every way's recency is 0, and when `rp != 0` the `lru`
field is left exactly as it was in the record passed in. -/
theorem init_cache_post (c0 : Cache) (assoc rp : Int) (hs : 0 < c0.size)
    (hb : 0 < c0.block_size) (ha : 0 < assoc) (hd : c0.block_size * assoc ∣ c0.size) :
    ∃ c, init_cache c0 assoc rp = .ok c ∧
      c.num_sets = c0.size.tdiv (c0.block_size * assoc) ∧ 1 ≤ c.num_sets ∧
      c.num_sets * c.assoc * c.block_size = c0.size ∧
      c.size = c0.size ∧ c.block_size = c0.block_size ∧ c.assoc = assoc ∧
      c.replacement = rp ∧
      c.valid.length = c.num_sets.toNat ∧ (∀ row ∈ c.valid, row.length = c.assoc.toNat) ∧
      c.tag.length = c.num_sets.toNat ∧ (∀ row ∈ c.tag, row.length = c.assoc.toNat) ∧
      (∀ s w : Int, 0 ≤ s → s < c.num_sets → 0 ≤ w → w < c.assoc →
        rd2 c.valid s w = .ok 0) ∧
      c.hit = 0 ∧ c.miss = 0 ∧
      (rp = 0 → c.lru.length = (c.num_sets * c.assoc).toNat ∧
        ∀ s w : Int, 0 ≤ s → s < c.num_sets → 0 ≤ w → w < c.assoc →
          rd c.lru (s * c.assoc + w) = .ok 0) ∧
      (rp ≠ 0 → c.lru = c0.lru) := by
  obtain ⟨c, hinit, hwf, hh, hm, e1, e2, e3, e4, e5, hfresh⟩ := init_wf c0 assoc rp hs hb ha hd
  obtain ⟨n1, n2⟩ := num_sets_pos hs hb ha hd
  have hlru : c.lru = if rp = 0 then List.replicate (c.num_sets * c.assoc).toNat 0
      else c0.lru := by
    have h := hinit
    rw [init_eq c0 assoc rp (mul_pos ha hb).ne'] at h
    injection h with h
    subst h
    rfl
  refine ⟨c, hinit, by rw [e5, mul_comm], by rw [e5]; exact n1, by rw [e5, e1, e2]; exact n2,
    e3, e2, e1, e4, hwf.2.2.2.1, hwf.2.2.2.2.1, hwf.2.2.2.2.2.1, hwf.2.2.2.2.2.2.1, ?_, hh, hm,
    ?_, ?_⟩
  · intro s w hs0 hs1 hw0 hw1
    obtain ⟨⟨v, hv⟩, _⟩ := wf_rd2 hwf hs0 hs1 hw0 hw1
    rw [hv, hfresh s w v hv]
  · intro hrp
    have hrp' : c.replacement = 0 := e4.trans hrp
    refine ⟨hwf.2.2.2.2.2.2.2 hrp', ?_⟩
    intro s w hs0 hs1 hw0 hw1
    obtain ⟨a, b⟩ := wf_lru hwf hrp' hs0 hs1 hw0 hw1
    obtain ⟨x, hx⟩ := rd_ok_of_lt c.lru a b
    rw [hx]
    have hmem := List.getElem?_mem (rd_eq_ok.mp hx).2
    rw [hlru, if_pos hrp] at hmem
    rw [List.eq_of_mem_replicate hmem]
  · intro hrp
    rw [hlru, if_neg hrp]

theorem init_cache_post_witness :
    (0 : Int) < (blank 32 4).size ∧ (blank 32 4).block_size * 2 ∣ (blank 32 4).size ∧
    ∃ c, init_cache (blank 32 4) 2 0 = .ok c ∧
      c.num_sets = (blank 32 4).size.tdiv ((blank 32 4).block_size * 2) ∧ 1 ≤ c.num_sets ∧
      c.num_sets * c.assoc * c.block_size = (blank 32 4).size ∧
      c.size = (blank 32 4).size ∧ c.block_size = (blank 32 4).block_size ∧ c.assoc = 2 ∧
      c.replacement = 0 ∧
      c.valid.length = c.num_sets.toNat ∧ (∀ row ∈ c.valid, row.length = c.assoc.toNat) ∧
      c.tag.length = c.num_sets.toNat ∧ (∀ row ∈ c.tag, row.length = c.assoc.toNat) ∧
      (∀ s w : Int, 0 ≤ s → s < c.num_sets → 0 ≤ w → w < c.assoc →
        rd2 c.valid s w = .ok 0) ∧
      c.hit = 0 ∧ c.miss = 0 ∧
      ((0 : Int) = 0 → c.lru.length = (c.num_sets * c.assoc).toNat ∧
        ∀ s w : Int, 0 ≤ s → s < c.num_sets → 0 ≤ w → w < c.assoc →
          rd c.lru (s * c.assoc + w) = .ok 0) ∧
      ((0 : Int) ≠ 0 → c.lru = (blank 32 4).lru) :=
  ⟨by decide, by decide,
    init_cache_post (blank 32 4) 2 0 (by decide) (by decide) (by decide) (by decide)⟩

theorem find_lru_argmax (lru : List Int) (base : Int) (A : Nat)
    (H : ∀ j : Nat, j < A → ∃ x, rd lru (base + j) = .ok x) (n : Nat) :
    ∀ (k v0 : Nat), k + n = A → v0 < k →
    (∀ (j : Nat) (x xv : Int), j < k → rd lru (base + j) = .ok x →
      rd lru (base + v0) = .ok xv → x ≤ xv ∧ (j < v0 → x < xv)) →
    ∃ v : Nat, find_lru lru base n k v0 = .ok (v : Int) ∧ v < A ∧
      ∀ (j : Nat) (x xv : Int), j < A → rd lru (base + j) = .ok x →
        rd lru (base + v) = .ok xv → x ≤ xv ∧ (j < v → x < xv) := by
  induction n with
  | zero =>
    intro k v0 hk hv hinv
    refine ⟨v0, rfl, by omega, ?_⟩
    intro j x xv hj
    exact hinv j x xv (by omega)
  | succ n ih =>
    intro k v0 hk hv hinv
    have hcast : ((k : Int) + 1) = ((k + 1 : Nat) : Int) := by push_cast; rfl
    obtain ⟨a, ha⟩ := H k (by omega)
    obtain ⟨b, hb⟩ := H v0 (by omega)
    by_cases hab : a > b
    · obtain ⟨v, h1, h2, h3⟩ := ih (k + 1) k (by omega) (by omega) (by
        intro j x xv hj hx hxv
        rw [ha] at hxv
        injection hxv with hxv
        subst hxv
        rcases Nat.lt_succ_iff_lt_or_eq.mp hj with hlt | heq
        · have := (hinv j x b hlt hx hb).1
          exact ⟨by omega, fun _ => by omega⟩
        · subst heq
          rw [ha] at hx
          injection hx with hx
          subst hx
          exact ⟨le_refl _, fun h => absurd h (lt_irrefl _)⟩)
      refine ⟨v, ?_, h2, h3⟩
      rw [← h1, ← hcast]
      simp [find_lru, ha, hb, hab, bind, Except.bind]
    · obtain ⟨v, h1, h2, h3⟩ := ih (k + 1) v0 (by omega) (by omega) (by
        intro j x xv hj hx hxv
        rcases Nat.lt_succ_iff_lt_or_eq.mp hj with hlt | heq
        · exact hinv j x xv hlt hx hxv
        · subst heq
          rw [ha] at hx
          rw [hb] at hxv
          injection hx with hx
          injection hxv with hxv
          subst hx
          subst hxv
          exact ⟨by omega, fun h => by omega⟩)
      refine ⟨v, ?_, h2, h3⟩
      rw [← h1, ← hcast]
      simp [find_lru, ha, hb, hab, bind, Except.bind]

theorem scan_none_of_not_resident (c : Cache) (hwf : WF c) (addr : Int) (ha : 0 ≤ addr)
    (hnres : ¬ Resident c (setIdx c addr) (tagOf c addr)) :
    scan_hit c (setIdx c addr) (tagOf c addr) c.assoc.toNat 0 = .ok none := by
  obtain ⟨hbs, hns, has, _⟩ := id hwf
  obtain ⟨hs0, hs1⟩ := setIdx_bounds hns addr ha hbs
  have hreads : ∀ j : Nat, 0 ≤ j → j < 0 + c.assoc.toNat →
      (∃ v, rd2 c.valid (setIdx c addr) j = .ok v) ∧
      (∃ t', rd2 c.tag (setIdx c addr) j = .ok t') := fun j _ hj =>
    wf_rd2 hwf hs0 hs1 (Int.natCast_nonneg j) (by omega)
  rcases scan_hit_spec c (setIdx c addr) (tagOf c addr) c.assoc.toNat 0 hreads with
    ⟨hsc, _⟩ | ⟨j, _, hj, _, hm, _⟩
  · simpa using hsc
  · exact absurd ⟨(j : Int), Int.natCast_nonneg j, by omega, hm⟩ hnres

theorem access_lru_miss (c : Cache) (hwf : WF c) (hrp : c.replacement = 0) (addr rnd : Int)
    (ha : 0 ≤ addr) (hnres : ¬ Resident c (setIdx c addr) (tagOf c addr)) :
    ∃ (v : Int) (tag' valid' : List (List Int)) (lru' : List Int),
      IsLruVictim c (setIdx c addr) v ∧
      wr2 c.tag (setIdx c addr) v (tagOf c addr) = .ok tag' ∧
      wr2 c.valid (setIdx c addr) v 1 = .ok valid' ∧
      wr c.lru (setIdx c addr * c.assoc + v) 0 = .ok lru' ∧
      access_cache c addr rnd =
        .ok { c with miss := c.miss + 1, tag := tag', valid := valid', lru := lru' } := by
  obtain ⟨hbs, hns, has, _⟩ := id hwf
  obtain ⟨hs0, hs1⟩ := setIdx_bounds hns addr ha hbs
  have hsc := scan_none_of_not_resident c hwf addr ha hnres
  rw [access_eq c addr rnd hbs hns, hsc]
  generalize setIdx c addr = s at *
  generalize tagOf c addr = t at *
  have hl : ∀ j : Nat, j < c.assoc.toNat → ∃ x, rd c.lru (s * c.assoc + j) = .ok x := by
    intro j hj
    obtain ⟨a, b⟩ := wf_lru hwf hrp hs0 hs1 (Int.natCast_nonneg j) (by omega)
    exact rd_ok_of_lt c.lru a b
  obtain ⟨v, hv, hvA, hmax⟩ := find_lru_argmax c.lru (s * c.assoc) c.assoc.toNat hl
    (c.assoc - 1).toNat 1 0 (by omega) (by omega) (by
      intro j x xv hj hx hxv
      have hj0 : j = 0 := by omega
      subst hj0
      rw [hx] at hxv
      injection hxv with hxv
      subst hxv
      exact ⟨le_refl _, fun h => absurd h (lt_irrefl _)⟩)
  simp only [Nat.cast_one, Nat.cast_zero] at hv
  have hv1 : (v : Int) < c.assoc := by omega
  obtain ⟨⟨x1, hx1⟩, ⟨x2, hx2⟩⟩ := wf_rd2 hwf hs0 hs1 (Int.natCast_nonneg v) hv1
  obtain ⟨tag', htag⟩ := wr2_ok_of_rd2 t hx2
  obtain ⟨valid', hvalid⟩ := wr2_ok_of_rd2 (1 : Int) hx1
  obtain ⟨a, b⟩ := wf_lru hwf hrp hs0 hs1 (Int.natCast_nonneg v) hv1
  have hw := wr_ok_of_lt c.lru 0 a b
  obtain ⟨xv, hxv⟩ := hl v hvA
  refine ⟨v, tag', valid', _, ⟨Int.natCast_nonneg v, hv1, xv, hxv, ?_⟩, htag, hvalid, hw, ?_⟩
  · intro j x hj0 hj1 hx
    have h := hmax j.toNat x xv (by omega) (by rw [Int.toNat_of_nonneg hj0]; exact hx) hxv
    exact ⟨h.1, fun hlt => h.2 (by omega)⟩
  · simp only [hrp, if_true, hv, htag, hvalid, hw, bind, Except.bind]

theorem scan_hit_lru_irrel (c : Cache) (l : List Int) (s t : Int) (n : Nat) :
    ∀ i : Int, scan_hit { c with lru := l } s t n i = scan_hit c s t n i := by
  induction n with
  | zero => intro i; rfl
  | succ n ih =>
    intro i
    simp only [scan_hit, ih]

theorem map_bind {α β γ : Type} (x : Except Fault α) (f : α → Except Fault β) (g : β → γ) :
    Except.map g (x >>= f) = x >>= fun a => Except.map g (f a) := by
  cases x <;> rfl

theorem access_random_lru_irrel (c : Cache) (h : c.replacement ≠ 0) (l : List Int)
    (addr rnd : Int) :
    access_cache { c with lru := l } addr rnd =
      (access_cache c addr rnd).map (fun c' => { c' with lru := l }) := by
  simp only [access_cache, scan_hit_lru_irrel, h, if_false]
  rw [map_bind]
  congr 1
  funext blk
  rw [map_bind]
  congr 1
  funext s
  rw [map_bind]
  congr 1
  funext t
  rw [map_bind]
  congr 1
  funext o
  cases o with
  | some i => rfl
  | none =>
    show _ = Except.map _ (_ >>= _)
    rw [map_bind]
    show (cmod rnd c.assoc >>= _) = (cmod rnd c.assoc >>= _)
    congr 1
    funext v
    rw [map_bind]
    congr 1
    funext tg
    rw [map_bind]
    rfl

/-- C11: in every well-formed state whose policy is not LRU (`replacement != 0`, RANDOM),
for every non-negative address and every non-negative value `r` of `rand()`: the way
`r % assoc` lies in `[0, assoc)`; if the address misses, the access returns, is a Miss, and
that way (whatever its valid flag was) gets the computed tag and `valid = 1`, while every
other way keeps its tag and valid flag; and, hit or miss, the recency array is neither
written (it is unchanged) nor read (replacing its content by any other list changes
nothing in the result but that list). -/
theorem random_miss_rule (c : Cache) (hwf : WF c) (hrp : c.replacement ≠ 0) (addr rnd : Int)
    (ha : 0 ≤ addr) (hr : 0 ≤ rnd) :
    0 ≤ rnd.tmod c.assoc ∧ rnd.tmod c.assoc < c.assoc ∧
    (¬ Resident c (setIdx c addr) (tagOf c addr) →
      ∃ c', access_cache c addr rnd = .ok c' ∧ IsMiss c c' ∧
        rd2 c'.tag (setIdx c addr) (rnd.tmod c.assoc) = .ok (tagOf c addr) ∧
        rd2 c'.valid (setIdx c addr) (rnd.tmod c.assoc) = .ok 1 ∧
        ∀ s' w : Int, ¬ (s' = setIdx c addr ∧ w = rnd.tmod c.assoc) →
          rd2 c'.tag s' w = rd2 c.tag s' w ∧ rd2 c'.valid s' w = rd2 c.valid s' w) ∧
    (∃ c', access_cache c addr rnd = .ok c' ∧ c'.lru = c.lru) ∧
    (∀ l : List Int, access_cache { c with lru := l } addr rnd =
      (access_cache c addr rnd).map (fun c' => { c' with lru := l })) := by
  refine ⟨Int.tmod_nonneg _ hr, Int.tmod_lt_of_pos _ hwf.2.2.1, ?_, ?_,
    fun l => access_random_lru_irrel c hrp l addr rnd⟩
  · intro hnres
    rcases access_cases c hwf addr rnd ha hr with
      ⟨i, _, hi0, hi1, hm, _⟩ | ⟨v, tag', valid', lru', _, _, _, htag, hvalid, hnl, _, hacc⟩
    · exact absurd ⟨i, hi0, hi1, hm⟩ hnres
    · obtain ⟨_, hv⟩ := hnl hrp
      subst hv
      refine ⟨_, hacc, ⟨rfl, rfl⟩, ?_, ?_, ?_⟩
      · show rd2 tag' _ _ = _
        rw [rd2_wr2 htag, if_pos ⟨rfl, rfl⟩]
      · show rd2 valid' _ _ = _
        rw [rd2_wr2 hvalid, if_pos ⟨rfl, rfl⟩]
      · intro s' w hne
        constructor
        · show rd2 tag' _ _ = _
          rw [rd2_wr2 htag, if_neg hne]
        · show rd2 valid' _ _ = _
          rw [rd2_wr2 hvalid, if_neg hne]
  · obtain ⟨c', hacc, _, _, _, _, _, _, _, hnl, _⟩ := access_step c hwf addr rnd ha hr
    exact ⟨c', hacc, hnl hrp⟩

theorem random_miss_rule_witness :
    WF warm1way ∧ (0 : Int) ≤ Int.tmod 7 warm1way.assoc ∧
    Int.tmod 7 warm1way.assoc < warm1way.assoc ∧
    (∃ c', access_cache warm1way 36 7 = .ok c' ∧ IsMiss warm1way c' ∧
      rd2 c'.tag (setIdx warm1way 36) (Int.tmod 7 warm1way.assoc) = .ok (tagOf warm1way 36) ∧
      rd2 c'.valid (setIdx warm1way 36) (Int.tmod 7 warm1way.assoc) = .ok 1 ∧
      ∀ s' w : Int, ¬ (s' = setIdx warm1way 36 ∧ w = Int.tmod 7 warm1way.assoc) →
        rd2 c'.tag s' w = rd2 warm1way.tag s' w ∧
        rd2 c'.valid s' w = rd2 warm1way.valid s' w) := by
  have h := random_miss_rule warm1way (by decide) (by decide) 36 7 (by decide) (by decide)
  refine ⟨by decide, h.1, h.2.1, h.2.2.1 ?_⟩
  rintro ⟨i, hi0, hi1, v, _, _, h3⟩
  have hi : i = 0 := by
    have : i < 1 := hi1
    omega
  subst hi
  have h4 : (Except.ok 0 : Except Fault Int) = .ok (tagOf warm1way 36) := h3
  injection h4 with h5
  exact absurd h5 (by decide)

/-- C14: in every well-formed LRU state, for every non-negative address that misses in its
set `s`, the access returns and is a Miss; the victim `v` is the lowest-indexed way of `s`
whose recency equals the maximum recency over all `assoc` ways of `s`; afterwards way `v`
holds the computed tag, has `valid = 1` and recency 0, while the tag, valid flag and
recency of every other way of `s` are unchanged. -/
theorem lru_miss_rule (c : Cache) (hwf : WF c) (hrp : c.replacement = 0) (addr rnd : Int)
    (ha : 0 ≤ addr) (hmiss : ¬ Resident c (setIdx c addr) (tagOf c addr)) :
    ∃ c' v, access_cache c addr rnd = .ok c' ∧ IsMiss c c' ∧
      IsLruVictim c (setIdx c addr) v ∧
      rd2 c'.tag (setIdx c addr) v = .ok (tagOf c addr) ∧
      rd2 c'.valid (setIdx c addr) v = .ok 1 ∧
      rd c'.lru (setIdx c addr * c.assoc + v) = .ok 0 ∧
      ∀ w : Int, w ≠ v →
        rd2 c'.tag (setIdx c addr) w = rd2 c.tag (setIdx c addr) w ∧
        rd2 c'.valid (setIdx c addr) w = rd2 c.valid (setIdx c addr) w ∧
        rd c'.lru (setIdx c addr * c.assoc + w) = rd c.lru (setIdx c addr * c.assoc + w) := by
  obtain ⟨v, tag', valid', lru', hvic, htag, hvalid, hlru, hacc⟩ :=
    access_lru_miss c hwf hrp addr rnd ha hmiss
  refine ⟨_, v, hacc, ⟨rfl, rfl⟩, hvic, ?_, ?_, ?_, ?_⟩
  · show rd2 tag' _ _ = _
    rw [rd2_wr2 htag, if_pos ⟨rfl, rfl⟩]
  · show rd2 valid' _ _ = _
    rw [rd2_wr2 hvalid, if_pos ⟨rfl, rfl⟩]
  · show rd lru' _ = _
    rw [rd_wr hlru, if_pos rfl]
  · intro w hw
    refine ⟨?_, ?_, ?_⟩
    · show rd2 tag' _ _ = _
      rw [rd2_wr2 htag, if_neg (fun h => hw h.2)]
    · show rd2 valid' _ _ = _
      rw [rd2_wr2 hvalid, if_neg (fun h => hw h.2)]
    · show rd lru' _ = _
      rw [rd_wr hlru, if_neg (by omega)]

theorem lru_miss_rule_witness :
    WF warm2way ∧ warm2way.replacement = 0 ∧
    ∃ c' v, access_cache warm2way 0 5 = .ok c' ∧ IsMiss warm2way c' ∧
      IsLruVictim warm2way (setIdx warm2way 0) v ∧
      rd2 c'.tag (setIdx warm2way 0) v = .ok (tagOf warm2way 0) ∧
      rd2 c'.valid (setIdx warm2way 0) v = .ok 1 ∧
      rd c'.lru (setIdx warm2way 0 * warm2way.assoc + v) = .ok 0 ∧
      ∀ w : Int, w ≠ v →
        rd2 c'.tag (setIdx warm2way 0) w = rd2 warm2way.tag (setIdx warm2way 0) w ∧
        rd2 c'.valid (setIdx warm2way 0) w = rd2 warm2way.valid (setIdx warm2way 0) w ∧
        rd c'.lru (setIdx warm2way 0 * warm2way.assoc + w) =
          rd warm2way.lru (setIdx warm2way 0 * warm2way.assoc + w) := by
  refine ⟨by decide, by decide, lru_miss_rule warm2way (by decide) (by decide) 0 5
    (by decide) ?_⟩
  rintro ⟨i, hi0, hi1, v, h1, h2, h3⟩
  have hi1' : i < 2 := hi1
  obtain rfl | rfl : i = 0 ∨ i = 1 := by omega
  · have h4 : (Except.ok 3 : Except Fault Int) = .ok (tagOf warm2way 0) := h3
    injection h4 with h5
    exact absurd h5 (by decide)
  · have h4 : (Except.ok 0 : Except Fault Int) = .ok v := h1
    injection h4 with h5
    exact h2 h5.symm

/-- C15: in every well-formed LRU state, for every non-negative address that hits in its
set `s`, with `i` the lowest-indexed valid way holding the tag: the access returns and is a
Hit; afterwards the recency of way `i` is 0 and the recency of every other way `j != i` of
`s` (valid or not) is its previous value plus 1, while the `valid` and `tag` arrays of the
whole cache are unchanged. -/
theorem lru_hit_rule (c : Cache) (hwf : WF c) (hrp : c.replacement = 0) (addr rnd : Int)
    (ha : 0 ≤ addr) (hhit : Resident c (setIdx c addr) (tagOf c addr)) :
    ∃ c' i, access_cache c addr rnd = .ok c' ∧ IsHit c c' ∧
      0 ≤ i ∧ i < c.assoc ∧ MatchAt c (setIdx c addr) (tagOf c addr) i ∧
      (∀ j : Int, 0 ≤ j → j < i → ¬ MatchAt c (setIdx c addr) (tagOf c addr) j) ∧
      rd c'.lru (setIdx c addr * c.assoc + i) = .ok 0 ∧
      (∀ j x : Int, 0 ≤ j → j < c.assoc → j ≠ i →
        rd c.lru (setIdx c addr * c.assoc + j) = .ok x →
        rd c'.lru (setIdx c addr * c.assoc + j) = .ok (x + 1)) ∧
      c'.valid = c.valid ∧ c'.tag = c.tag := by
  obtain ⟨hbs, hns, has, _⟩ := id hwf
  obtain ⟨hs0, hs1⟩ := setIdx_bounds hns addr ha hbs
  rw [lru_ignores_rand c hrp addr rnd 0]
  rcases access_cases c hwf addr 0 ha (le_refl 0) with
    ⟨i, lru', hi0, hi1, hm, hfirst, _, _, hl, hacc⟩ | ⟨_, _, _, _, hn, _⟩
  · refine ⟨_, i, hacc, ⟨rfl, rfl⟩, hi0, hi1, hm, hfirst, ?_, ?_, rfl, rfl⟩
    · obtain ⟨a, b⟩ := wf_lru hwf hrp hs0 hs1 hi0 hi1
      obtain ⟨x, hx⟩ := rd_ok_of_lt c.lru a b
      show rd lru' _ = _
      rw [hl hrp _ x hx, if_pos rfl]
    · intro j x hj0 hj1 hji hx
      show rd lru' _ = _
      rw [hl hrp _ x hx, if_neg (by omega), if_pos ⟨by omega, by omega⟩]
  · exact absurd hhit hn

theorem lru_hit_rule_witness :
    WF warm2way ∧ warm2way.replacement = 0 ∧
    ∃ c' i, access_cache warm2way 48 5 = .ok c' ∧ IsHit warm2way c' ∧
      0 ≤ i ∧ i < warm2way.assoc ∧ MatchAt warm2way (setIdx warm2way 48) (tagOf warm2way 48) i ∧
      (∀ j : Int, 0 ≤ j → j < i →
        ¬ MatchAt warm2way (setIdx warm2way 48) (tagOf warm2way 48) j) ∧
      rd c'.lru (setIdx warm2way 48 * warm2way.assoc + i) = .ok 0 ∧
      (∀ j x : Int, 0 ≤ j → j < warm2way.assoc → j ≠ i →
        rd warm2way.lru (setIdx warm2way 48 * warm2way.assoc + j) = .ok x →
        rd c'.lru (setIdx warm2way 48 * warm2way.assoc + j) = .ok (x + 1)) ∧
      c'.valid = warm2way.valid ∧ c'.tag = warm2way.tag :=
  ⟨by decide, by decide, lru_hit_rule warm2way (by decide) (by decide) 48 5 (by decide)
    ⟨0, by decide, by decide, 1, rfl, by decide, rfl⟩⟩

/-- C16: in every well-formed state, under either policy and for every non-negative
address, the access returns and is a Hit or a Miss; every way that was valid before is
valid after; a Hit changes no tag and no valid flag; and a way's valid flag or tag differs
after the access only if the access is a Miss and the way is the selected victim of the
accessed set, which then has `valid = 1` and the computed tag. -/
theorem way_state_machine (c : Cache) (hwf : WF c) (addr rnd : Int) (ha : 0 ≤ addr)
    (hr : 0 ≤ rnd) :
    ∃ c', access_cache c addr rnd = .ok c' ∧ (IsHit c c' ∨ IsMiss c c') ∧
      (∀ s w v : Int, rd2 c.valid s w = .ok v → v ≠ 0 →
        ∃ v', rd2 c'.valid s w = .ok v' ∧ v' ≠ 0) ∧
      (IsHit c c' → c'.valid = c.valid ∧ c'.tag = c.tag) ∧
      ∃ vic : Int, 0 ≤ vic ∧ vic < c.assoc ∧
        ∀ s w : Int, (rd2 c'.valid s w ≠ rd2 c.valid s w ∨ rd2 c'.tag s w ≠ rd2 c.tag s w) →
          IsMiss c c' ∧ s = setIdx c addr ∧ w = vic ∧
          rd2 c'.valid s w = .ok 1 ∧ rd2 c'.tag s w = .ok (tagOf c addr) := by
  obtain ⟨c', hacc, _, _, _, _, _, _, hcase, _, _⟩ := access_step c hwf addr rnd ha hr
  refine ⟨c', hacc, ?_⟩
  rcases hcase with ⟨_, hhit, hv, ht⟩ | ⟨_, hmiss, vic, hv0, hv1, ht, hv⟩
  · refine ⟨Or.inl hhit, ?_, fun _ => ⟨hv, ht⟩, 0, le_refl 0, hwf.2.2.1, ?_⟩
    · intro s w v h1 h2
      exact ⟨v, by rw [hv]; exact h1, h2⟩
    · intro s w h
      rw [hv, ht] at h
      rcases h with h | h <;> exact absurd rfl h
  · refine ⟨Or.inr hmiss, ?_, ?_, vic, hv0, hv1, ?_⟩
    · intro s w v h1 h2
      rw [rd2_wr2 hv]
      by_cases h : s = setIdx c addr ∧ w = vic
      · exact ⟨1, by rw [if_pos h], by decide⟩
      · exact ⟨v, by rw [if_neg h]; exact h1, h2⟩
    · rintro ⟨h1, h2⟩
      have := hmiss.1
      omega
    · intro s w h
      by_cases hsw : s = setIdx c addr ∧ w = vic
      · obtain ⟨rfl, rfl⟩ := hsw
        refine ⟨hmiss, rfl, rfl, ?_, ?_⟩
        · rw [rd2_wr2 hv, if_pos ⟨rfl, rfl⟩]
        · rw [rd2_wr2 ht, if_pos ⟨rfl, rfl⟩]
      · rw [rd2_wr2 hv, rd2_wr2 ht, if_neg hsw, if_neg hsw] at h
        rcases h with h | h <;> exact absurd rfl h

theorem way_state_machine_witness :
    WF warm2way ∧
    ∃ c', access_cache warm2way 0 5 = .ok c' ∧ (IsHit warm2way c' ∨ IsMiss warm2way c') ∧
      (∀ s w v : Int, rd2 warm2way.valid s w = .ok v → v ≠ 0 →
        ∃ v', rd2 c'.valid s w = .ok v' ∧ v' ≠ 0) ∧
      (IsHit warm2way c' → c'.valid = warm2way.valid ∧ c'.tag = warm2way.tag) ∧
      ∃ vic : Int, 0 ≤ vic ∧ vic < warm2way.assoc ∧
        ∀ s w : Int, (rd2 c'.valid s w ≠ rd2 warm2way.valid s w ∨
            rd2 c'.tag s w ≠ rd2 warm2way.tag s w) →
          IsMiss warm2way c' ∧ s = setIdx warm2way 0 ∧ w = vic ∧
          rd2 c'.valid s w = .ok 1 ∧ rd2 c'.tag s w = .ok (tagOf warm2way 0) :=
  ⟨by decide, way_state_machine warm2way (by decide) 0 5 (by decide) (by decide)⟩

/-! ## Reachable states -/

theorem run_invariant (P : Cache → Prop)
    (hstep : ∀ (c c' : Cache) (a r : Int), WF c → P c → 0 ≤ a → 0 ≤ r →
      access_cache c a r = .ok c' → P c') (tr : List (Int × Int)) :
    ∀ c : Cache, WF c → P c → (∀ p ∈ tr, 0 ≤ p.1 ∧ 0 ≤ p.2) →
    ∃ c', run c tr = .ok c' ∧ WF c' ∧ P c' := by
  induction tr with
  | nil =>
    intro c hwf hp _
    exact ⟨c, rfl, hwf, hp⟩
  | cons p rest ih =>
    intro c hwf hp hnn
    obtain ⟨addr, rnd⟩ := p
    obtain ⟨ha, hr⟩ := hnn (addr, rnd) (List.mem_cons_self _ _)
    obtain ⟨c1, hacc, hwf1, _⟩ := access_step c hwf addr rnd ha hr
    obtain ⟨c2, hrun, hwf2, hp2⟩ := ih c1 hwf1 (hstep c c1 addr rnd hwf hp ha hr hacc)
      (fun q hq => hnn q (List.mem_cons_of_mem _ hq))
    refine ⟨c2, ?_, hwf2, hp2⟩
    simp only [run, bind, Except.bind, hacc]
    exact hrun

theorem matchAt_in_range {c : Cache} (hwf : WF c) {s t w : Int} (h : MatchAt c s t w) :
    0 ≤ w ∧ w < c.assoc := by
  obtain ⟨v, h1, _, _⟩ := h
  obtain ⟨_, _, _, h4, h5, _⟩ := hwf
  obtain ⟨_, _, a, b⟩ := lt_of_rd2_ok h4 h5 h1
  exact ⟨a, by omega⟩

theorem noDup_step (c c' : Cache) (a r : Int) (hwf : WF c) (hp : NoDupTags c)
    (ha : 0 ≤ a) (hr : 0 ≤ r) (hacc : access_cache c a r = .ok c') : NoDupTags c' := by
  obtain ⟨c1, hacc1, _, _, _, _, _, _, hcase, _, _⟩ := access_step c hwf a r ha hr
  rw [hacc] at hacc1
  injection hacc1 with e
  subst e
  rcases hcase with ⟨_, _, hv, ht⟩ | ⟨hnres, _, vic, hv0, hv1, ht, hv⟩
  · intro s t w1 w2 h1 h2
    apply hp s t w1 w2
    · obtain ⟨v, a1, a2, a3⟩ := h1
      exact ⟨v, by rw [← hv]; exact a1, a2, by rw [← ht]; exact a3⟩
    · obtain ⟨v, a1, a2, a3⟩ := h2
      exact ⟨v, by rw [← hv]; exact a1, a2, by rw [← ht]; exact a3⟩
  · have key : ∀ s t w, MatchAt c' s t w → ¬ (s = setIdx c a ∧ w = vic) → MatchAt c s t w := by
      rintro s t w ⟨v, a1, a2, a3⟩ hne
      rw [rd2_wr2 hv, if_neg hne] at a1
      rw [rd2_wr2 ht, if_neg hne] at a3
      exact ⟨v, a1, a2, a3⟩
    have atvic : ∀ t, MatchAt c' (setIdx c a) t vic → t = tagOf c a := by
      rintro t ⟨v, _, _, a3⟩
      rw [rd2_wr2 ht, if_pos ⟨rfl, rfl⟩] at a3
      injection a3 with a3
      exact a3.symm
    intro s t w1 w2 h1 h2
    by_cases e1 : s = setIdx c a ∧ w1 = vic
    · obtain ⟨rfl, rfl⟩ := e1
      by_contra hne
      have ht' := atvic t h1
      subst ht'
      have h2' := key _ _ w2 h2 (fun h => hne h.2.symm)
      obtain ⟨b0, b1⟩ := matchAt_in_range hwf h2'
      exact hnres ⟨w2, b0, b1, h2'⟩
    · by_cases e2 : s = setIdx c a ∧ w2 = vic
      · obtain ⟨rfl, rfl⟩ := e2
        by_contra hne
        have ht' := atvic t h2
        subst ht'
        have h1' := key _ _ w1 h1 e1
        obtain ⟨b0, b1⟩ := matchAt_in_range hwf h1'
        exact hnres ⟨w1, b0, b1, h1'⟩
      · exact hp s t w1 w2 (key s t w1 h1 e1) (key s t w2 h2 e2)

/-- C19: in every state reached from `init_cache` (positive `size`, `block_size`, `assoc`
with `block_size * assoc` dividing `size`) by accesses to non-negative addresses, under
either policy and for any values of `rand()`, no set contains two distinct valid ways
holding the same tag. -/
theorem no_duplicate_residency (c0 : Cache) (assoc rp : Int) (hs : 0 < c0.size)
    (hb : 0 < c0.block_size) (ha : 0 < assoc) (hd : c0.block_size * assoc ∣ c0.size)
    (tr : List (Int × Int)) (hnn : ∀ p ∈ tr, 0 ≤ p.1 ∧ 0 ≤ p.2) :
    ∃ c c', init_cache c0 assoc rp = .ok c ∧ run c tr = .ok c' ∧
      ∀ s t w1 w2 : Int, MatchAt c' s t w1 → MatchAt c' s t w2 → w1 = w2 := by
  obtain ⟨c, hinit, hwf, _, _, _, _, _, _, _, hfresh⟩ := init_wf c0 assoc rp hs hb ha hd
  have h0 : NoDupTags c := by
    rintro s t w1 w2 ⟨v, a1, a2, _⟩ _
    exact absurd (hfresh s w1 v a1) a2
  obtain ⟨c', hrun, _, hp⟩ := run_invariant NoDupTags noDup_step tr c hwf h0 hnn
  exact ⟨c, c', hinit, hrun, hp⟩

theorem no_duplicate_residency_witness :
    (4 : Int) * 2 ∣ 32 ∧
    ∃ c c', init_cache (blank 32 4) 2 1 = .ok c ∧
      run c [(0, 1), (16, 0), (0, 1), (32, 1)] = .ok c' ∧
      ∀ s t w1 w2 : Int, MatchAt c' s t w1 → MatchAt c' s t w2 → w1 = w2 :=
  ⟨by decide, no_duplicate_residency (blank 32 4) 2 1 (by decide) (by decide) (by decide)
    (by decide) [(0, 1), (16, 0), (0, 1), (32, 1)] (by decide)⟩

theorem block_of_set_tag (c : Cache) (x : Int) :
    x.tdiv c.block_size = tagOf c x * c.num_sets + setIdx c x := by
  unfold tagOf setIdx
  have := Int.tmod_add_tdiv (x.tdiv c.block_size) c.num_sets
  rw [mul_comm] at this
  omega

theorem seen_run (tr : List (Int × Int)) : ∀ (c : Cache) (seen : List Int), WF c →
    SeenInv c seen → (∀ p ∈ tr, 0 ≤ p.1 ∧ 0 ≤ p.2) →
    ∃ c', run c tr = .ok c' ∧ WF c' ∧ SeenInv c' (seen ++ tr.map Prod.fst) ∧
      c'.block_size = c.block_size ∧ c'.num_sets = c.num_sets := by
  induction tr with
  | nil =>
    intro c seen hwf hinv _
    exact ⟨c, rfl, hwf, by simpa using hinv, rfl, rfl⟩
  | cons p rest ih =>
    intro c seen hwf hinv hnn
    obtain ⟨a, r⟩ := p
    obtain ⟨ha, hr⟩ := hnn (a, r) (List.mem_cons_self _ _)
    obtain ⟨c1, hacc, hwf1, _, e2, _, e4, _, hcase, _, _⟩ := access_step c hwf a r ha hr
    have hcong : ∀ x, setIdx c1 x = setIdx c x ∧ tagOf c1 x = tagOf c x :=
      fun x => setIdx_congr e4 e2 x
    have hinv1 : SeenInv c1 (seen ++ [a]) := by
      rintro s t w ⟨v, a1, a2, a3⟩
      have old : MatchAt c s t w → ∃ x ∈ seen ++ [a], setIdx c1 x = s ∧ tagOf c1 x = t := by
        intro hm
        obtain ⟨x, hx, h1, h2⟩ := hinv s t w hm
        exact ⟨x, List.mem_append_left _ hx, by rw [(hcong x).1]; exact h1,
          by rw [(hcong x).2]; exact h2⟩
      rcases hcase with ⟨_, _, hv, ht⟩ | ⟨_, _, vic, _, _, ht, hv⟩
      · exact old ⟨v, by rw [← hv]; exact a1, a2, by rw [← ht]; exact a3⟩
      · by_cases e : s = setIdx c a ∧ w = vic
        · rw [rd2_wr2 ht, if_pos e] at a3
          injection a3 with a3
          exact ⟨a, by simp, by rw [(hcong a).1]; exact e.1.symm, by rw [(hcong a).2]; exact a3⟩
        · rw [rd2_wr2 hv, if_neg e] at a1
          rw [rd2_wr2 ht, if_neg e] at a3
          exact old ⟨v, a1, a2, a3⟩
    obtain ⟨c2, hrun, hwf2, hinv2, f4, f2⟩ := ih c1 (seen ++ [a]) hwf1 hinv1
      (fun q hq => hnn q (List.mem_cons_of_mem _ hq))
    refine ⟨c2, ?_, hwf2, by simpa using hinv2, f4.trans e4, f2.trans e2⟩
    simp only [run, bind, Except.bind, hacc]
    exact hrun

/-- C17: starting from `init_cache` with positive `size`, `block_size`, `assoc` where
`block_size * assoc` divides `size`, for every sequence of non-negative addresses, either
policy and any values of `rand()`: every access returns; if an access is a Hit then some
earlier access of the sequence had the same block number `addr / block_size`; equivalently
an access to a block not accessed before is a Miss.  The block number of an address is
`tag * num_sets + set_index`. -/
theorem no_false_hits (c0 : Cache) (assoc rp : Int) (hs : 0 < c0.size)
    (hb : 0 < c0.block_size) (has : 0 < assoc) (hd : c0.block_size * assoc ∣ c0.size)
    (tr : List (Int × Int)) (hnn : ∀ p ∈ tr, 0 ≤ p.1 ∧ 0 ≤ p.2) (a r : Int) (ha : 0 ≤ a)
    (hr : 0 ≤ r) :
    ∃ c c1 c2, init_cache c0 assoc rp = .ok c ∧ run c tr = .ok c1 ∧
      access_cache c1 a r = .ok c2 ∧
      (IsHit c1 c2 → ∃ p ∈ tr, p.1.tdiv c.block_size = a.tdiv c.block_size) ∧
      ((∀ p ∈ tr, p.1.tdiv c.block_size ≠ a.tdiv c.block_size) → IsMiss c1 c2) ∧
      (∀ x : Int, x.tdiv c.block_size = tagOf c x * c.num_sets + setIdx c x) := by
  obtain ⟨c, hinit, hwf, _, _, _, _, _, _, _, hfresh⟩ := init_wf c0 assoc rp hs hb has hd
  have h0 : SeenInv c [] := by
    rintro s t w ⟨v, a1, a2, _⟩
    exact absurd (hfresh s w v a1) a2
  obtain ⟨c1, hrun, hwf1, hinv, e4, e2⟩ := seen_run tr c [] hwf h0 hnn
  obtain ⟨c2, hacc, _, _, _, _, _, _, hcase, _, _⟩ := access_step c1 hwf1 a r ha hr
  have hres : Resident c1 (setIdx c1 a) (tagOf c1 a) →
      ∃ p ∈ tr, p.1.tdiv c.block_size = a.tdiv c.block_size := by
    rintro ⟨w, _, _, hm⟩
    obtain ⟨x, hx, h1, h2⟩ := hinv _ _ w hm
    simp only [List.nil_append, List.mem_map] at hx
    obtain ⟨p, hp, rfl⟩ := hx
    refine ⟨p, hp, ?_⟩
    have b1 := block_of_set_tag c1 p.1
    have b2 := block_of_set_tag c1 a
    rw [h1, h2, ← b2, e4] at b1
    exact b1
  refine ⟨c, c1, c2, hinit, hrun, hacc, ?_, ?_, block_of_set_tag c⟩
  · intro hhit
    rcases hcase with ⟨h, _⟩ | ⟨_, hmiss, _⟩
    · exact hres h
    · have := hhit.2
      have := hmiss.1
      omega
  · intro hnew
    rcases hcase with ⟨h, _⟩ | ⟨_, hmiss, _⟩
    · obtain ⟨p, hp, he⟩ := hres h
      exact absurd he (hnew p hp)
    · exact hmiss

theorem no_false_hits_witness :
    (4 : Int) * 2 ∣ 32 ∧
    ∃ c c1 c2, init_cache (blank 32 4) 2 1 = .ok c ∧
      run c [(0, 1), (16, 0), (5, 1)] = .ok c1 ∧
      access_cache c1 33 3 = .ok c2 ∧ IsMiss c1 c2 := by
  obtain ⟨c, c1, c2, h1, h2, h3, _, h5, _⟩ := no_false_hits (blank 32 4) 2 1 (by decide)
    (by decide) (by decide) (by decide) [(0, 1), (16, 0), (5, 1)] (by decide) 33 3
    (by decide) (by decide)
  have h1' := h1
  cases h1'
  exact ⟨by decide, _, c1, c2, h1, h2, h3, h5 (by decide)⟩

theorem run_append (l1 l2 : List (Int × Int)) : ∀ c : Cache,
    run c (l1 ++ l2) = run c l1 >>= fun c1 => run c1 l2 := by
  induction l1 with
  | nil => intro c; rfl
  | cons p rest ih =>
    intro c
    obtain ⟨a, r⟩ := p
    simp only [List.cons_append, run]
    cases access_cache c a r with
    | error e => rfl
    | ok c1 => exact ih c1

theorem run_split {tr : List (Int × Int)} {k : Nat} {a r : Int} (h : tr[k]? = some (a, r))
    (c : Cache) :
    run c (tr.take (k + 1)) = (run c (tr.take k) >>= fun ck => access_cache ck a r) ∧
    run c tr = (run c (tr.take (k + 1)) >>= fun ck1 => run ck1 (tr.drop (k + 1))) := by
  constructor
  · rw [List.take_succ, h, run_append]
    congr 1
    funext ck
    show (access_cache ck a r >>= fun c' => Except.ok c') = _
    cases access_cache ck a r <;> rfl
  · rw [← run_append, List.take_append_drop]

theorem way0_step (c : Cache) (hwf : WF c) (hrp : c.replacement = 0) (hz : AllRecencyZero c)
    (ho : OnlyWayZeroValid c) (a r : Int) (ha : 0 ≤ a)
    (hmiss : ¬ Resident c (setIdx c a) (tagOf c a)) :
    ∃ c', access_cache c a r = .ok c' ∧ IsMiss c c' ∧ IsLruVictim c (setIdx c a) 0 ∧
      MatchAt c' (setIdx c a) (tagOf c a) 0 ∧ AllRecencyZero c' ∧ OnlyWayZeroValid c' := by
  obtain ⟨v, tag', valid', lru', hvic, htag, hvalid, hlru, hacc⟩ :=
    access_lru_miss c hwf hrp a r ha hmiss
  have hv : v = 0 := by
    obtain ⟨hv0, hv1, xv, hxv, hmax⟩ := hvic
    by_contra hne
    obtain ⟨_, hns, has, _⟩ := id hwf
    obtain ⟨hs0, hs1⟩ := setIdx_bounds hns a ha hwf.1
    obtain ⟨p0, p1⟩ := wf_lru hwf hrp hs0 hs1 (le_refl 0) has
    obtain ⟨x0, hx0⟩ := rd_ok_of_lt c.lru p0 p1
    have h1 := (hmax 0 x0 (le_refl 0) has hx0).2 (by omega)
    have h2 := hz _ _ hx0
    have h3 := hz _ _ hxv
    omega
  subst hv
  refine ⟨_, hacc, ⟨rfl, rfl⟩, hvic, ⟨1, ?_, by decide, ?_⟩, ?_, ?_⟩
  · show rd2 valid' _ _ = _
    rw [rd2_wr2 hvalid, if_pos ⟨rfl, rfl⟩]
  · show rd2 tag' _ _ = _
    rw [rd2_wr2 htag, if_pos ⟨rfl, rfl⟩]
  · intro p x hp
    have hp' : rd lru' p = .ok x := hp
    rw [rd_wr hlru] at hp'
    by_cases e : p = setIdx c a * c.assoc + 0
    · rw [if_pos e] at hp'
      injection hp' with hp'
      exact hp'.symm
    · rw [if_neg e] at hp'
      exact hz p x hp'
  · intro s w x hx hx0
    have hx' : rd2 valid' s w = .ok x := hx
    rw [rd2_wr2 hvalid] at hx'
    by_cases e : s = setIdx c a ∧ w = 0
    · exact e.2
    · rw [if_neg e] at hx'
      exact ho s w x hx' hx0

theorem way0_run (tr : List (Int × Int)) : ∀ c : Cache, WF c →
    (∀ p ∈ tr, 0 ≤ p.1 ∧ 0 ≤ p.2) →
    ∃ c', run c tr = .ok c' ∧ WF c' ∧ c.hit ≤ c'.hit ∧ c'.replacement = c.replacement ∧
      (c.replacement = 0 → AllRecencyZero c → OnlyWayZeroValid c → c'.hit = c.hit →
        AllRecencyZero c' ∧ OnlyWayZeroValid c') := by
  induction tr with
  | nil =>
    intro c hwf _
    exact ⟨c, rfl, hwf, le_refl _, rfl, fun _ h1 h2 _ => ⟨h1, h2⟩⟩
  | cons p rest ih =>
    intro c hwf hnn
    obtain ⟨a, r⟩ := p
    obtain ⟨ha, hr⟩ := hnn (a, r) (List.mem_cons_self _ _)
    obtain ⟨c1, hacc, hwf1, _, _, _, _, e5, hcase, _, _⟩ := access_step c hwf a r ha hr
    obtain ⟨c2, hrun, hwf2, hmono, f5, hq⟩ := ih c1 hwf1
      (fun q hq => hnn q (List.mem_cons_of_mem _ hq))
    have hmono1 : c.hit ≤ c1.hit := by
      rcases hcase with ⟨_, ⟨h1, _⟩, _⟩ | ⟨_, ⟨_, h1⟩, _⟩ <;> omega
    refine ⟨c2, ?_, hwf2, by omega, f5.trans e5, ?_⟩
    · simp only [run, bind, Except.bind, hacc]
      exact hrun
    · intro hrp hz ho hhit
      have hmiss : ¬ Resident c (setIdx c a) (tagOf c a) := by
        rcases hcase with ⟨_, ⟨h1, _⟩, _⟩ | ⟨h, _⟩
        · omega
        · exact h
      obtain ⟨c1', hacc', hm, _, _, hz1, ho1⟩ := way0_step c hwf hrp hz ho a r ha hmiss
      rw [hacc] at hacc'
      injection hacc' with e
      subst e
      exact hq (e5.trans hrp) hz1 ho1 (by have := hm.2; omega)

theorem init_lru_zero (c0 c : Cache) (assoc : Int) (hne : assoc * c0.block_size ≠ 0)
    (hinit : init_cache c0 assoc 0 = .ok c) : AllRecencyZero c := by
  rw [init_eq c0 assoc 0 hne] at hinit
  injection hinit with e
  subst e
  intro p x hp
  have hmem := List.getElem?_mem (rd_eq_ok.mp hp).2
  simp only [if_true] at hmem
  exact List.eq_of_mem_replicate hmem

/-- C18: starting from a freshly initialised LRU cache of any associativity (positive
`size`, `block_size`, `assoc` with `block_size * assoc` dividing `size`), for every sequence
of non-negative addresses in which no access is a Hit (the final `hit` counter is 0): every
access is a Miss whose victim search selects way 0 of its set and installs the tag there,
all recency values remain 0, and after every access, in particular after the whole
sequence, a valid way can only be way 0 of its set. -/
theorem lru_misses_reuse_way_zero (c0 : Cache) (assoc : Int) (hs : 0 < c0.size)
    (hb : 0 < c0.block_size) (has : 0 < assoc) (hd : c0.block_size * assoc ∣ c0.size)
    (tr : List (Int × Int)) (hnn : ∀ p ∈ tr, 0 ≤ p.1 ∧ 0 ≤ p.2) :
    ∃ c cn, init_cache c0 assoc 0 = .ok c ∧ run c tr = .ok cn ∧
      (cn.hit = 0 →
        AllRecencyZero cn ∧ OnlyWayZeroValid cn ∧
        ∀ (k : Nat) (a r : Int), tr[k]? = some (a, r) →
          ∃ ck ck1, run c (tr.take k) = .ok ck ∧ access_cache ck a r = .ok ck1 ∧
            run c (tr.take (k + 1)) = .ok ck1 ∧ IsMiss ck ck1 ∧
            IsLruVictim ck (setIdx ck a) 0 ∧
            MatchAt ck1 (setIdx ck a) (tagOf ck a) 0 ∧
            AllRecencyZero ck1 ∧ OnlyWayZeroValid ck1) := by
  obtain ⟨c, hinit, hwf, hh, _, _, _, _, hrp, _, hfresh⟩ := init_wf c0 assoc 0 hs hb has hd
  have hz : AllRecencyZero c := init_lru_zero c0 c assoc (mul_pos has hb).ne' hinit
  have ho : OnlyWayZeroValid c := fun s w v h1 h2 => absurd (hfresh s w v h1) h2
  obtain ⟨cn, hrun, _, _, _, hq⟩ := way0_run tr c hwf hnn
  refine ⟨c, cn, hinit, hrun, fun hcn => ?_⟩
  obtain ⟨hzn, hon⟩ := hq hrp hz ho (hcn.trans hh.symm)
  refine ⟨hzn, hon, ?_⟩
  intro k a r hk
  obtain ⟨hs1, hs2⟩ := run_split hk c
  obtain ⟨ha, hr⟩ := hnn (a, r) (List.getElem?_mem hk)
  obtain ⟨ck, hrk, hwfk, hmk, hrpk, hqk⟩ := way0_run (tr.take k) c hwf
    (fun p hp => hnn p (List.mem_of_mem_take hp))
  obtain ⟨ck1, hacc, hwf1, _, _, _, _, _, hcase, _, _⟩ := access_step ck hwfk a r ha hr
  obtain ⟨cn', hrn, _, hmn, _, _⟩ := way0_run (tr.drop (k + 1)) ck1 hwf1
    (fun p hp => hnn p (List.mem_of_mem_drop hp))
  have h1 : run c (tr.take (k + 1)) = .ok ck1 := by
    rw [hs1, hrk]
    exact hacc
  have h2 : run c tr = .ok cn' := by
    rw [hs2, h1]
    exact hrn
  rw [hrun] at h2
  injection h2 with e
  subst e
  have hm1 : ck.hit ≤ ck1.hit := by
    rcases hcase with ⟨_, ⟨g1, _⟩, _⟩ | ⟨_, ⟨_, g1⟩, _⟩ <;> omega
  have hmiss : ¬ Resident ck (setIdx ck a) (tagOf ck a) := by
    rcases hcase with ⟨_, ⟨g1, _⟩, _⟩ | ⟨g, _⟩
    · omega
    · exact g
  obtain ⟨hzk, hok⟩ := hqk hrp hz ho (by omega)
  obtain ⟨ck1', hacc', hm, hvic, hmat, hz1, ho1⟩ :=
    way0_step ck hwfk (hrpk.trans hrp) hzk hok a r ha hmiss
  rw [hacc] at hacc'
  injection hacc' with e
  subst e
  exact ⟨ck, ck1, hrk, hacc, h1, hm, hvic, hmat, hz1, ho1⟩

theorem lru_misses_reuse_way_zero_witness :
    (4 : Int) * 4 ∣ 32 ∧
    ∃ c cn, init_cache (blank 32 4) 4 0 = .ok c ∧
      run c [(0, 0), (8, 0), (16, 0)] = .ok cn ∧
      AllRecencyZero cn ∧ OnlyWayZeroValid cn := by
  obtain ⟨c, cn, h1, h2, h3⟩ := lru_misses_reuse_way_zero (blank 32 4) 4 (by decide)
    (by decide) (by decide) (by decide) [(0, 0), (8, 0), (16, 0)] (by decide)
  have h1' := h1
  cases h1'
  have h2' := h2
  cases h2'
  obtain ⟨a, b, _⟩ := h3 rfl
  exact ⟨by decide, _, _, h1, h2, a, b⟩

/-- C12 (the code at the failing input): on the freshly initialised direct-mapped cache
(no access made, `hit + miss = 0`) `print_stats` has no special case: it reports total 0
and evaluates `100.0 * 0 / 0`, a division by zero that yields no number; after one access
(`hit + miss = 1`) it reports total 1 and the rate `100 * hit / (hit + miss) = 0`. -/
theorem print_stats_divides_by_zero :
    ∃ c c1, init_cache (blank 32 4) 1 0 = .ok c ∧ c.hit + c.miss = 0 ∧
      print_stats c = (0, 0, 0, none) ∧
      access_cache c 0 0 = .ok c1 ∧ print_stats c1 = (0, 1, 1, some 0) := by
  refine ⟨_, _, rfl, rfl, ?_, rfl, ?_⟩
  · simp [print_stats, fdiv, init_cache, cdiv, blank]
  · simp [print_stats, fdiv]

end CacheSim
